import Mathlib

/-!
Verification of the Markdown-to-document converter in `src/main.py`.

The development shallowly embeds the line classifier, the block
accumulator (the stateful loop of `markdown_to_doc`), the inline image
resolver (`handle_inline_images`), the table finalizer (`flush_table`)
and the image fitter (`add_image_paragraph`).  Python regexes are
translated into executable character-list scanners; the generated
`python-docx` document is abstracted into an ordered list of semantic
blocks (`MdBlock`), one per `doc.add_*` call group; image bytes are
abstracted by their decode outcome (`ImageData`); real page geometry is
passed in as the usable width in inches, as a rational number.
-/

/-- Python `str.isspace` / regex `\s` membership for the ASCII whitespace
characters (the source only ever meets these). -/
def isPySpace (c : Char) : Bool :=
  c == ' ' || c == '\t' || c == '\n' || c == '\r' || c == '\x0b' || c == '\x0c'

/-- Python `str.strip()` on a character list: drop whitespace from both ends. -/
def pyStripList (cs : List Char) : List Char :=
  ((cs.dropWhile isPySpace).reverse.dropWhile isPySpace).reverse

/-- Python `str.strip()`. -/
def pyStrip (s : String) : String :=
  String.mk (pyStripList s.toList)

/-- `HEADING_RE = ^(#{1,6})\s+(.*)$` applied with `re.match`; returns the
number of leading hash marks and group 2 (the text after the maximal
whitespace run). -/
def headingMatch (s : String) : Option (Nat × String) :=
  let cs := s.toList
  let k := (cs.takeWhile (· == '#')).length
  match cs.dropWhile (· == '#') with
  | [] => none
  | c :: rest =>
    if 1 ≤ k ∧ k ≤ 6 ∧ isPySpace c = true then
      some (k, String.mk ((c :: rest).dropWhile isPySpace))
    else none

/-- `UL_RE = ^\s*[-*+]\s+(.*)$` applied with `re.match`; returns group 1. -/
def ulMatch (s : String) : Option String :=
  match s.toList.dropWhile isPySpace with
  | m :: c :: rest =>
    if (m == '-' || m == '*' || m == '+') && isPySpace c then
      some (String.mk ((c :: rest).dropWhile isPySpace))
    else none
  | _ => none

/-- `OL_RE = ^\s*\d+\.\s+(.*)$` applied with `re.match`; returns group 1. -/
def olMatch (s : String) : Option String :=
  let t := s.toList.dropWhile isPySpace
  match t.takeWhile Char.isDigit, t.dropWhile Char.isDigit with
  | _ :: _, '.' :: c :: rest =>
    if isPySpace c then some (String.mk ((c :: rest).dropWhile isPySpace)) else none
  | _, _ => none

/-- `TABLE_ROW_RE = ^\s*\|(.+)\|\s*$` applied with `re.match`; returns
group 1, the text between the first pipe and the last pipe that is
followed only by whitespace. -/
def tableRowMatch (s : String) : Option String :=
  match pyStripList s.toList with
  | '|' :: rest =>
    if rest.getLast? = some '|' ∧ 2 ≤ rest.length then
      some (String.mk rest.dropLast)
    else none
  | _ => none

/-- `IMG_LINE_RE = ^\s*!\[([^\]]*)\]\(([^)]+)\)\s*$` applied with
`re.match`; returns (alt, src). -/
def imgLineMatch (s : String) : Option (String × String) :=
  match s.toList.dropWhile isPySpace with
  | '!' :: '[' :: t =>
    match t.dropWhile (· != ']') with
    | ']' :: '(' :: u =>
      match u.takeWhile (· != ')'), u.dropWhile (· != ')') with
      | src@(_ :: _), ')' :: tail =>
        if tail.all isPySpace then
          some (String.mk (t.takeWhile (· != ']')), String.mk src)
        else none
      | _, _ => none
    | _ => none
  | _ => none

/-- One step of `IMG_INLINE_RE = !\[([^\]]*)\]\(([^)]+)\)`: try to match
the inline-image pattern at the very start of `cs`; on success return
the captured `src` group and the remaining characters after the match. -/
def imgTokenAt : List Char → Option (String × List Char)
  | '!' :: '[' :: t =>
    match t.dropWhile (· != ']') with
    | ']' :: '(' :: u =>
      match u.takeWhile (· != ')'), u.dropWhile (· != ')') with
      | src@(_ :: _), ')' :: rest => some (String.mk src, rest)
      | _, _ => none
    | _ => none
  | _ => none

theorem length_dropWhile_le_self (p : Char → Bool) (l : List Char) :
    (l.dropWhile p).length ≤ l.length := by
  induction l with
  | nil => simp
  | cons a t ih =>
    by_cases hp : p a = true
    · rw [List.dropWhile_cons_of_pos hp]; exact Nat.le_succ_of_le ih
    · rw [List.dropWhile_cons_of_neg (by simpa using hp)]

theorem imgTokenAt_length {cs : List Char} {s : String} {rest : List Char}
    (h : imgTokenAt cs = some (s, rest)) : rest.length < cs.length := by
  unfold imgTokenAt at h
  split at h
  case h_1 t =>
    have ht : (t.dropWhile (· != ']')).length ≤ t.length :=
      length_dropWhile_le_self _ t
    split at h
    case h_1 u heq =>
      have hu : u.length + 2 ≤ t.length := by
        rw [heq] at ht; simpa using ht
      have hu2 : (u.dropWhile (· != ')')).length ≤ u.length :=
        length_dropWhile_le_self _ u
      split at h
      case h_1 src _ rest0 hsrc hdrop =>
        have : rest0.length + 1 ≤ u.length := by
          rw [hdrop] at hu2; simpa using hu2
        simp only [Option.some.injEq, Prod.mk.injEq] at h
        obtain ⟨-, hr⟩ := h
        subst hr
        simp only [List.length_cons]
        omega
      case h_2 => exact absurd h (by simp)
    case h_2 => exact absurd h (by simp)
  case h_2 => exact absurd h (by simp)

/-- One semantic block of the produced document: one `doc.add_heading`,
`doc.add_paragraph`, list-styled paragraph group, `doc.add_table`, or
picture-bearing paragraph in `main.py`. -/
inductive MdBlock where
  | heading (level : Nat) (text : String)
  | para (text : String)
  | list (ordered : Bool) (items : List String)
  | table (rows : List (List String))
  | image (width : ℚ)
deriving DecidableEq

/-- Raw image bytes abstracted by what `PIL.Image.open` would do with
them: empty byte string (falsy in Python), undecodable bytes, or a
decodable image with an intrinsic pixel width and optional DPI metadata. -/
inductive ImageData where
  | empty
  | undecodable
  | decodable (widthPx : Nat) (dpi : Option ℚ)
deriving DecidableEq

/-- Python truthiness of the byte string (`if blob:`): only the empty
byte string is falsy. -/
def ImageData.truthy : ImageData → Bool
  | .empty => false
  | _ => true

/-- The caller-supplied image set (`images: dict` in `main.py`). -/
abbrev ImageMap := List (String × ImageData)

/-- `im.info.get("dpi", (96, 96))[0] or 96`: default DPI 96 when the
metadata is absent or zero. -/
def effDpi : Option ℚ → ℚ
  | none => 96
  | some d => if d = 0 then 96 else d

/-- The width computation of `add_image_paragraph` (lines 88-95 of
`main.py`): `width_in = width_px / dpi`, clamped to the usable width by
`scale = usable / width_in` when it exceeds it. -/
def fit_width (widthPx : Nat) (dpi : Option ℚ) (usable : ℚ) : ℚ :=
  let wIn : ℚ := (widthPx : ℚ) / effDpi dpi
  let scale : ℚ := if usable < wIn then usable / wIn else 1
  wIn * scale

/-- `add_image_paragraph`: a decodable image is placed at its fitted
width; any decode failure falls back to exactly the usable width. -/
def add_image_paragraph (img : ImageData) (usable : ℚ) : MdBlock :=
  match img with
  | .decodable px dpi => MdBlock.image (fit_width px dpi usable)
  | _ => MdBlock.image usable

/-- `add_paragraph(doc, text)`: whitespace-only text becomes an
explicit empty paragraph. -/
def add_paragraph_block (t : String) : MdBlock :=
  if pyStrip t = "" then MdBlock.para "" else MdBlock.para t

/-- One entry of the `parts` list built by `handle_inline_images`. -/
inductive MdPart where
  | text (s : String)
  | img (fname : String)
deriving DecidableEq

/-- The `IMG_INLINE_RE.finditer` loop of `handle_inline_images` (lines
109-118): left-to-right non-overlapping scan; `pend` holds (reversed)
the characters since the previous match end.  Image parts carry the
stripped `src` capture, text parts the verbatim inter-match text.
Recursion is by fuel to keep the definition kernel-reducible; each step
consumes at least one character, so fuel equal to the input length is
enough and the fuel-exhaustion branch is unreachable (see
`partsAux_fuel_congr`). -/
def partsAux : Nat → List Char → List Char → List MdPart
  | _, pend, [] => if pend.isEmpty then [] else [MdPart.text (String.mk pend.reverse)]
  | 0, pend, _ :: _ =>
    if pend.isEmpty then [] else [MdPart.text (String.mk pend.reverse)]
  | fuel + 1, pend, c :: rest =>
    match imgTokenAt (c :: rest) with
    | some (src, rest2) =>
      (if pend.isEmpty then [] else [MdPart.text (String.mk pend.reverse)])
        ++ MdPart.img (pyStrip src) :: partsAux fuel [] rest2
    | none => partsAux fuel (c :: pend) rest

/-- The parts list of `handle_inline_images` for a text. -/
def mdParts (cs : List Char) : List MdPart := partsAux cs.length [] cs

theorem partsAux_fuel_congr :
    ∀ (f1 f2 : Nat) (pend cs : List Char), cs.length ≤ f1 → cs.length ≤ f2 →
      partsAux f1 pend cs = partsAux f2 pend cs := by
  intro f1
  induction f1 with
  | zero =>
    intro f2 pend cs h1 h2
    have : cs = [] := List.length_eq_zero.mp (Nat.le_zero.mp h1)
    subst this
    cases f2 <;> rfl
  | succ f ih =>
    intro f2 pend cs h1 h2
    cases cs with
    | nil => cases f2 <;> rfl
    | cons c rest =>
      cases f2 with
      | zero => simp at h2
      | succ g =>
        simp only [partsAux]
        cases hm : imgTokenAt (c :: rest) with
        | some p =>
          obtain ⟨src, rest2⟩ := p
          have hlen : rest2.length < rest.length + 1 := by
            have := imgTokenAt_length hm
            simpa using this
          dsimp only
          simp only [List.length_cons] at h1 h2
          rw [ih g [] rest2 (by omega) (by omega)]
        | none =>
          dsimp only
          simp only [List.length_cons] at h1 h2
          rw [ih g (c :: pend) rest (by omega) (by omega)]

/-- `IMG_INLINE_RE.search(text)` as a Boolean: some position of the text
starts an inline image match. -/
def hasImgIn : List Char → Bool
  | [] => false
  | c :: rest => (imgTokenAt (c :: rest)).isSome || hasImgIn rest

/-- `IMG_INLINE_RE.search` on a string. -/
def hasInlineImg (s : String) : Bool := hasImgIn s.toList

/-- The emission loop of `handle_inline_images` (lines 124-134): a text
part becomes a stripped paragraph, or an explicit empty paragraph when
whitespace-only; an image part is resolved by exact filename lookup and
silently dropped when missing or empty. -/
def renderPart (images : ImageMap) (usable : ℚ) : MdPart → List MdBlock
  | .text payload =>
    if pyStrip payload = "" then [MdBlock.para ""]
    else [add_paragraph_block (pyStrip payload)]
  | .img fname =>
    match List.lookup fname images with
    | some d => if d.truthy then [add_image_paragraph d usable] else []
    | none => []

/-- `handle_inline_images(doc, text, images)` (lines 108-134), as the
list of blocks it appends to the document. -/
def handle_inline_images (text : String) (images : ImageMap) (usable : ℚ) :
    List MdBlock :=
  let parts := mdParts text.toList
  if parts.isEmpty then [add_paragraph_block text]
  else parts.flatMap (renderPart images usable)

/-- Python `str.split("|")`: split on every pipe, keeping empty pieces
(so the empty string yields one empty piece). -/
def splitCells : List Char → List (List Char)
  | [] => [[]]
  | c :: rest =>
    match splitCells rest with
    | [] => [[]]
    | h :: t => if c == '|' then [] :: h :: t else (c :: h) :: t

/-- `is_align_row`'s per-cell check `re.fullmatch(':?-{3,}:?', c)`. -/
def alignCell (cs : List Char) : Bool :=
  let a := match cs with | ':' :: t => t | _ => cs
  let b := match a.reverse with | ':' :: t => t.reverse | _ => a
  decide (3 ≤ b.length) && b.all (· == '-')

/-- `is_align_row(row)` (lines 52-55): strip whitespace, strip pipes,
strip whitespace again, split on `|`, and require every stripped cell to
match the alignment pattern. -/
def is_align_row (r : String) : Bool :=
  let r1 := pyStripList r.toList
  let r2 := ((r1.dropWhile (· == '|')).reverse.dropWhile (· == '|')).reverse
  let r3 := pyStripList r2
  (splitCells r3).all (fun c => alignCell (pyStripList c))

/-- The cell extraction of `flush_table`'s loop body: re-match
`TABLE_ROW_RE`, split group 1 on `|`, strip each cell. -/
def rowCells (r : String) : Option (List String) :=
  (tableRowMatch r).map
    (fun mid => (splitCells mid.toList).map (fun c => String.mk (pyStripList c)))

/-- `cols = max(len(r) for r in matrix)` (with 0 for the impossible
empty matrix). -/
def maxCols (matrix : List (List String)) : Nat :=
  matrix.foldl (fun a r => max a r.length) 0

/-- The cell-writing loop: cell `j` is `row[j] if j < len(row) else ""`. -/
def padRow (cols : Nat) (row : List String) : List String :=
  (List.range cols).map (fun j => row.getD j "")

/-- `flush_table(doc, rows)` (lines 57-77) as the list of emitted
blocks: drop alignment rows, keep `TABLE_ROW_RE` matches, right-pad to
the widest row; empty results emit nothing. -/
def flush_table (rows : List String) : List MdBlock :=
  if rows.isEmpty then [] else
  let filtered := rows.filter (fun r => !is_align_row r)
  if filtered.isEmpty then [] else
  let matrix := filtered.filterMap rowCells
  if matrix.isEmpty then [] else
  [MdBlock.table (matrix.map (padRow (maxCols matrix)))]

/-- `flush_list(doc, buf, ordered)`: a non-empty buffer is emitted as
one run of same-styled list paragraphs, i.e. one list block. -/
def flushListBlocks (buf : List String) (ordered : Bool) : List MdBlock :=
  if buf.isEmpty then [] else [MdBlock.list ordered buf]

/-- The inner `flush_para()` of `markdown_to_doc` (lines 145-152):
join the buffered lines with single spaces, strip, then either resolve
inline images or emit one paragraph. -/
def flush_para_blocks (paraBuf : List String) (images : ImageMap)
    (usable : ℚ) : List MdBlock :=
  if paraBuf.isEmpty then [] else
  let text := pyStrip (String.intercalate " " paraBuf)
  if hasInlineImg text then handle_inline_images text images usable
  else [add_paragraph_block text]

/-- The mutable state of `markdown_to_doc`'s line loop: the emitted
blocks so far plus the open paragraph, list and table buffers. -/
structure PState where
  doc : List MdBlock
  ulBuf : List String
  olBuf : List String
  tblBuf : List String
  inTable : Bool
  paraBuf : List String
deriving DecidableEq

/-- The state at the top of `markdown_to_doc`. -/
def initState : PState := ⟨[], [], [], [], false, []⟩

/-- Lines 161-168 of `main.py`: on a non-table line while `in_table`,
flush paragraph, lists and table (in that order) and reset the table. -/
def closeTable (images : ImageMap) (usable : ℚ) (s : PState) : PState :=
  if s.inTable then
    ⟨s.doc ++ flush_para_blocks s.paraBuf images usable
        ++ flushListBlocks s.ulBuf false ++ flushListBlocks s.olBuf true
        ++ flush_table s.tblBuf,
      [], [], [], false, []⟩
  else s

/-- The body of `for raw in lines:` (lines 154-211 of `main.py`). -/
def mdStep (images : ImageMap) (usable : ℚ) (s : PState) (line : String) :
    PState :=
  if (tableRowMatch line).isSome then
    ⟨s.doc, s.ulBuf, s.olBuf, s.tblBuf ++ [line], true, s.paraBuf⟩
  else
    let t := closeTable images usable s
    match headingMatch line with
    | some (k, g) =>
      ⟨t.doc ++ flush_para_blocks t.paraBuf images usable
          ++ flushListBlocks t.ulBuf false ++ flushListBlocks t.olBuf true
          ++ [MdBlock.heading (min (max k 1) 9) (pyStrip g)],
        [], [], t.tblBuf, t.inTable, []⟩
    | none =>
      match ulMatch line with
      | some g =>
        ⟨t.doc ++ flush_para_blocks t.paraBuf images usable
            ++ flushListBlocks t.olBuf true,
          t.ulBuf ++ [pyStrip g], [], t.tblBuf, t.inTable, []⟩
      | none =>
        match olMatch line with
        | some g =>
          ⟨t.doc ++ flush_para_blocks t.paraBuf images usable
              ++ flushListBlocks t.ulBuf false,
            [], t.olBuf ++ [pyStrip g], t.tblBuf, t.inTable, []⟩
        | none =>
          match imgLineMatch line with
          | some (_, src) =>
            ⟨t.doc ++ flush_para_blocks t.paraBuf images usable
                ++ flushListBlocks t.ulBuf false ++ flushListBlocks t.olBuf true
                ++ (match List.lookup (pyStrip src) images with
                    | some d => if d.truthy then [add_image_paragraph d usable] else []
                    | none => []),
              [], [], t.tblBuf, t.inTable, []⟩
          | none =>
            if pyStrip line = "" then
              ⟨t.doc ++ flush_para_blocks t.paraBuf images usable
                  ++ flushListBlocks t.ulBuf false ++ flushListBlocks t.olBuf true,
                [], [], t.tblBuf, t.inTable, []⟩
            else
              ⟨t.doc, t.ulBuf, t.olBuf, t.tblBuf, t.inTable,
                t.paraBuf ++ [pyStrip line]⟩

/-- The end-of-input flush (lines 213-217): paragraph, lists, table,
each exactly once. -/
def mdFinish (images : ImageMap) (usable : ℚ) (s : PState) : List MdBlock :=
  s.doc ++ flush_para_blocks s.paraBuf images usable
    ++ flushListBlocks s.ulBuf false ++ flushListBlocks s.olBuf true
    ++ flush_table s.tblBuf

/-- `markdown_to_doc(md_text, images)` over the already-split lines:
the ordered sequence of emitted document blocks. -/
def markdown_to_doc (lines : List String) (images : ImageMap) (usable : ℚ) :
    List MdBlock :=
  mdFinish images usable (lines.foldl (mdStep images usable) initState)

/-- An emission event of the accumulator: the blocks appended by one
flush (or direct emission) paired with the indices of the input lines
that triggered it. -/
abbrev IEvent := List MdBlock × List Nat

/-- The accumulator state instrumented with source-line indices: every
buffered line remembers the index of the input line it came from, and
the emitted document is kept as a list of emission events. -/
structure IState where
  doc : List IEvent
  ulBuf : List (String × Nat)
  olBuf : List (String × Nat)
  tblBuf : List (String × Nat)
  inTable : Bool
  paraBuf : List (String × Nat)
deriving DecidableEq

/-- The instrumented initial state. -/
def initIState : IState := ⟨[], [], [], [], false, []⟩

/-- Instrumented `flush_para()`: one event carrying the paragraph's
blocks and all of its source-line indices. -/
def imFlushPara (images : ImageMap) (usable : ℚ) (buf : List (String × Nat)) :
    List IEvent :=
  if buf.isEmpty then []
  else [(flush_para_blocks (buf.map Prod.fst) images usable, buf.map Prod.snd)]

/-- Instrumented `flush_list`. -/
def imFlushList (buf : List (String × Nat)) (ordered : Bool) : List IEvent :=
  if buf.isEmpty then []
  else [([MdBlock.list ordered (buf.map Prod.fst)], buf.map Prod.snd)]

/-- Instrumented `flush_table`. -/
def imFlushTable (buf : List (String × Nat)) : List IEvent :=
  if buf.isEmpty then [] else [(flush_table (buf.map Prod.fst), buf.map Prod.snd)]

/-- Instrumented table-closing flush (lines 161-168 of `main.py`). -/
def imCloseTable (images : ImageMap) (usable : ℚ) (s : IState) : IState :=
  if s.inTable then
    ⟨s.doc ++ imFlushPara images usable s.paraBuf
        ++ imFlushList s.ulBuf false ++ imFlushList s.olBuf true
        ++ imFlushTable s.tblBuf,
      [], [], [], false, []⟩
  else s

/-- Instrumented loop body: identical branching to `mdStep`, with line
index `i` recorded on every buffered line and directly emitted block. -/
def imStep (images : ImageMap) (usable : ℚ) (i : Nat) (s : IState)
    (line : String) : IState :=
  if (tableRowMatch line).isSome then
    ⟨s.doc, s.ulBuf, s.olBuf, s.tblBuf ++ [(line, i)], true, s.paraBuf⟩
  else
    let t := imCloseTable images usable s
    match headingMatch line with
    | some (k, g) =>
      ⟨t.doc ++ imFlushPara images usable t.paraBuf
          ++ imFlushList t.ulBuf false ++ imFlushList t.olBuf true
          ++ [([MdBlock.heading (min (max k 1) 9) (pyStrip g)], [i])],
        [], [], t.tblBuf, t.inTable, []⟩
    | none =>
      match ulMatch line with
      | some g =>
        ⟨t.doc ++ imFlushPara images usable t.paraBuf
            ++ imFlushList t.olBuf true,
          t.ulBuf ++ [(pyStrip g, i)], [], t.tblBuf, t.inTable, []⟩
      | none =>
        match olMatch line with
        | some g =>
          ⟨t.doc ++ imFlushPara images usable t.paraBuf
              ++ imFlushList t.ulBuf false,
            [], t.olBuf ++ [(pyStrip g, i)], t.tblBuf, t.inTable, []⟩
        | none =>
          match imgLineMatch line with
          | some (_, src) =>
            ⟨t.doc ++ imFlushPara images usable t.paraBuf
                ++ imFlushList t.ulBuf false ++ imFlushList t.olBuf true
                ++ [((match List.lookup (pyStrip src) images with
                      | some d => if d.truthy then [add_image_paragraph d usable] else []
                      | none => []), [i])],
              [], [], t.tblBuf, t.inTable, []⟩
          | none =>
            if pyStrip line = "" then
              ⟨t.doc ++ imFlushPara images usable t.paraBuf
                  ++ imFlushList t.ulBuf false ++ imFlushList t.olBuf true,
                [], [], t.tblBuf, t.inTable, []⟩
            else
              ⟨t.doc, t.ulBuf, t.olBuf, t.tblBuf, t.inTable,
                t.paraBuf ++ [(pyStrip line, i)]⟩

/-- Instrumented run of the line loop starting at line index `i`. -/
def imRun (images : ImageMap) (usable : ℚ) : Nat → IState → List String → IState
  | _, s, [] => s
  | i, s, l :: ls => imRun images usable (i + 1) (imStep images usable i s l) ls

/-- Instrumented end-of-input flush. -/
def imFinish (images : ImageMap) (usable : ℚ) (s : IState) : List IEvent :=
  s.doc ++ imFlushPara images usable s.paraBuf
    ++ imFlushList s.ulBuf false ++ imFlushList s.olBuf true
    ++ imFlushTable s.tblBuf

/-- Instrumented `markdown_to_doc`: the emission-event trace. -/
def imarkdown_to_doc (lines : List String) (images : ImageMap) (usable : ℚ) :
    List IEvent :=
  imFinish images usable (imRun images usable 0 initIState lines)

/-- Event `e1` precedes event `e2` in source order: every line index
that triggered `e1` is smaller than every line index that triggered
`e2`. -/
def evLt (e1 e2 : IEvent) : Prop :=
  ∀ i ∈ e1.2, ∀ j ∈ e2.2, i < j

/-- The whole event trace respects source order. -/
def EventsOrdered (evs : List IEvent) : Prop := List.Pairwise evLt evs

/-- The line falls through to the plain-text branch of the loop
(lines 205-211 reached with non-blank content). -/
def plainBranch (line : String) : Bool :=
  (tableRowMatch line).isNone && (headingMatch line).isNone
    && (ulMatch line).isNone && (olMatch line).isNone
    && (imgLineMatch line).isNone && (pyStrip line != "")

/-- No plain-text line is consumed while a list buffer is open (checked
against the state left after any table close on that same line). -/
def imSafeAux (images : ImageMap) (usable : ℚ) :
    Nat → IState → List String → Bool
  | _, _, [] => true
  | i, s, l :: ls =>
    let t := imCloseTable images usable s
    ((!plainBranch l) || (t.ulBuf.isEmpty && t.olBuf.isEmpty))
      && imSafeAux images usable (i + 1) (imStep images usable i s l) ls

/-- Safety of a whole input: no plain-text continuation line interrupts
an open list anywhere in the run. -/
def imListSafe (lines : List String) (images : ImageMap) (usable : ℚ) : Bool :=
  imSafeAux images usable 0 initIState lines

/-- Erase the instrumentation: concatenate the events' blocks and drop
the indices. -/
def projI (s : IState) : PState :=
  ⟨s.doc.flatMap Prod.fst, s.ulBuf.map Prod.fst, s.olBuf.map Prod.fst,
    s.tblBuf.map Prod.fst, s.inTable, s.paraBuf.map Prod.fst⟩

theorem projI_flushPara (images : ImageMap) (usable : ℚ)
    (buf : List (String × Nat)) :
    (imFlushPara images usable buf).flatMap Prod.fst
      = flush_para_blocks (buf.map Prod.fst) images usable := by
  by_cases h : buf.isEmpty
  · simp [imFlushPara, flush_para_blocks, h, List.isEmpty_iff.mp h]
  · simp [imFlushPara, flush_para_blocks, h]

theorem projI_flushList (buf : List (String × Nat)) (o : Bool) :
    (imFlushList buf o).flatMap Prod.fst = flushListBlocks (buf.map Prod.fst) o := by
  by_cases h : buf.isEmpty
  · simp [imFlushList, flushListBlocks, h, List.isEmpty_iff.mp h]
  · have : (buf.map Prod.fst).isEmpty = false := by
      cases buf with
      | nil => simp at h
      | cons a t => simp
    simp [imFlushList, flushListBlocks, h, this]

theorem projI_flushTable (buf : List (String × Nat)) :
    (imFlushTable buf).flatMap Prod.fst = flush_table (buf.map Prod.fst) := by
  by_cases h : buf.isEmpty
  · simp [imFlushTable, flush_table, h, List.isEmpty_iff.mp h]
  · simp [imFlushTable, h]

theorem projI_closeTable (images : ImageMap) (usable : ℚ) (s : IState) :
    projI (imCloseTable images usable s) = closeTable images usable (projI s) := by
  by_cases h : s.inTable
  · simp [imCloseTable, closeTable, projI, h, projI_flushPara, projI_flushList,
      projI_flushTable]
  · simp [imCloseTable, closeTable, projI, h]

theorem projI_step (images : ImageMap) (usable : ℚ) (i : Nat) (s : IState)
    (line : String) :
    projI (imStep images usable i s line)
      = mdStep images usable (projI s) line := by
  by_cases htr : (tableRowMatch line).isSome
  · simp [imStep, mdStep, htr, projI]
  · have hc := projI_closeTable images usable s
    simp only [imStep, mdStep, htr, if_neg, Bool.false_eq_true, ↓reduceIte]
    rw [← hc]
    cases hh : headingMatch line with
    | some kg =>
      obtain ⟨k, g⟩ := kg
      simp [projI, projI_flushPara, projI_flushList]
    | none =>
      cases hu : ulMatch line with
      | some g => simp [projI, projI_flushPara, projI_flushList]
      | none =>
        cases ho : olMatch line with
        | some g => simp [projI, projI_flushPara, projI_flushList]
        | none =>
          cases hi : imgLineMatch line with
          | some p =>
            obtain ⟨a, src⟩ := p
            simp [projI, projI_flushPara, projI_flushList]
          | none =>
            by_cases hb : pyStrip line = ""
            · simp [hb, projI, projI_flushPara, projI_flushList]
            · simp [hb, projI]

theorem projI_run (images : ImageMap) (usable : ℚ) (ls : List String) :
    ∀ (i : Nat) (s : IState),
      projI (imRun images usable i s ls)
        = ls.foldl (mdStep images usable) (projI s) := by
  induction ls with
  | nil => intro i s; simp [imRun]
  | cons l t ih =>
    intro i s
    simp only [imRun, List.foldl_cons, ih, projI_step]

/-- Soundness of the instrumentation: flattening the event trace of the
instrumented run yields exactly the block sequence of `markdown_to_doc`. -/
theorem imarkdown_proj (lines : List String) (images : ImageMap) (usable : ℚ) :
    (imarkdown_to_doc lines images usable).flatMap Prod.fst
      = markdown_to_doc lines images usable := by
  unfold imarkdown_to_doc markdown_to_doc imFinish mdFinish
  have hrun := projI_run images usable lines 0 initIState
  have hinit : projI initIState = initState := rfl
  rw [hinit] at hrun
  set σ := imRun images usable 0 initIState lines with hσ
  have hdoc : (σ.doc.flatMap Prod.fst) = (lines.foldl (mdStep images usable) initState).doc := by
    rw [← hrun]; rfl
  have hul : σ.ulBuf.map Prod.fst = (lines.foldl (mdStep images usable) initState).ulBuf := by
    rw [← hrun]; rfl
  have hol : σ.olBuf.map Prod.fst = (lines.foldl (mdStep images usable) initState).olBuf := by
    rw [← hrun]; rfl
  have htbl : σ.tblBuf.map Prod.fst = (lines.foldl (mdStep images usable) initState).tblBuf := by
    rw [← hrun]; rfl
  have hpara : σ.paraBuf.map Prod.fst = (lines.foldl (mdStep images usable) initState).paraBuf := by
    rw [← hrun]; rfl
  simp only [List.flatMap_append, projI_flushPara, projI_flushList, projI_flushTable,
    hdoc, hul, hol, htbl, hpara]

/-- All source-line indices mentioned by a list of events. -/
def evsIdx (evs : List IEvent) : List Nat := evs.flatMap Prod.snd

/-- All source-line indices currently buffered in a state. -/
def bufIdx (s : IState) : List Nat :=
  s.paraBuf.map Prod.snd ++ s.ulBuf.map Prod.snd ++ s.olBuf.map Prod.snd
    ++ s.tblBuf.map Prod.snd

/-- The run invariant after consuming lines `0..n-1`: the emitted trace
is source-ordered, emitted indices precede buffered ones, all indices
are below `n`, the two list buffers are never simultaneously open, an
open paragraph implies closed lists (this is what the safety hypothesis
maintains), all non-table buffers predate the table buffer, and
`in_table` mirrors table-buffer non-emptiness. -/
def RunInv (n : Nat) (s : IState) : Prop :=
  EventsOrdered s.doc
  ∧ (∀ i ∈ evsIdx s.doc, ∀ j ∈ bufIdx s, i < j)
  ∧ (∀ i ∈ evsIdx s.doc, i < n)
  ∧ (∀ j ∈ bufIdx s, j < n)
  ∧ (s.ulBuf = [] ∨ s.olBuf = [])
  ∧ (s.paraBuf = [] ∨ (s.ulBuf = [] ∧ s.olBuf = []))
  ∧ (∀ j ∈ s.paraBuf.map Prod.snd ++ s.ulBuf.map Prod.snd ++ s.olBuf.map Prod.snd,
      ∀ k ∈ s.tblBuf.map Prod.snd, j < k)
  ∧ (s.inTable = !s.tblBuf.isEmpty)

theorem mem_imFlushPara {images : ImageMap} {usable : ℚ}
    {buf : List (String × Nat)} {e : IEvent}
    (he : e ∈ imFlushPara images usable buf) :
    e.2 = buf.map Prod.snd ∧ buf ≠ [] := by
  by_cases h : buf.isEmpty
  · simp [imFlushPara, h] at he
  · simp [imFlushPara, h] at he
    refine ⟨by simp [he], fun hb => by rw [hb] at h; simp at h⟩

theorem mem_imFlushList {buf : List (String × Nat)} {o : Bool} {e : IEvent}
    (he : e ∈ imFlushList buf o) : e.2 = buf.map Prod.snd ∧ buf ≠ [] := by
  by_cases h : buf.isEmpty
  · simp [imFlushList, h] at he
  · simp [imFlushList, h] at he
    refine ⟨by simp [he], fun hb => by rw [hb] at h; simp at h⟩

theorem mem_imFlushTable {buf : List (String × Nat)} {e : IEvent}
    (he : e ∈ imFlushTable buf) : e.2 = buf.map Prod.snd ∧ buf ≠ [] := by
  by_cases h : buf.isEmpty
  · simp [imFlushTable, h] at he
  · simp [imFlushTable, h] at he
    refine ⟨by simp [he], fun hb => by rw [hb] at h; simp at h⟩

theorem EventsOrdered_append {a b : List IEvent} (ha : EventsOrdered a)
    (hb : EventsOrdered b) (hab : ∀ e1 ∈ a, ∀ e2 ∈ b, evLt e1 e2) :
    EventsOrdered (a ++ b) :=
  List.pairwise_append.mpr ⟨ha, hb, hab⟩

theorem imFlushPara_ordered (images : ImageMap) (usable : ℚ)
    (buf : List (String × Nat)) : EventsOrdered (imFlushPara images usable buf) := by
  by_cases h : buf.isEmpty <;> simp [imFlushPara, h, EventsOrdered]

theorem imFlushList_ordered (buf : List (String × Nat)) (o : Bool) :
    EventsOrdered (imFlushList buf o) := by
  by_cases h : buf.isEmpty <;> simp [imFlushList, h, EventsOrdered]

theorem imFlushTable_ordered (buf : List (String × Nat)) :
    EventsOrdered (imFlushTable buf) := by
  by_cases h : buf.isEmpty <;> simp [imFlushTable, h, EventsOrdered]

theorem imFlushPara_nil (images : ImageMap) (usable : ℚ) :
    imFlushPara images usable [] = [] := rfl

theorem imFlushList_nil (o : Bool) : imFlushList [] o = [] := rfl

theorem imFlushTable_nil : imFlushTable [] = [] := rfl

theorem flushSeq_idx (images : ImageMap) (usable : ℚ)
    (p u o tb : List (String × Nat)) :
    ∀ e ∈ imFlushPara images usable p ++ imFlushList u false
        ++ imFlushList o true ++ imFlushTable tb,
      ∀ j ∈ e.2, j ∈ p.map Prod.snd ++ u.map Prod.snd ++ o.map Prod.snd
        ++ tb.map Prod.snd := by
  intro e he j hj
  simp only [List.append_assoc, List.mem_append] at he ⊢
  rcases he with he | he | he | he
  · exact Or.inl (by rw [← (mem_imFlushPara he).1]; exact hj)
  · exact Or.inr (Or.inl (by rw [← (mem_imFlushList he).1]; exact hj))
  · exact Or.inr (Or.inr (Or.inl (by rw [← (mem_imFlushList he).1]; exact hj)))
  · exact Or.inr (Or.inr (Or.inr (by rw [← (mem_imFlushTable he).1]; exact hj)))

theorem flushSeq_ordered (images : ImageMap) (usable : ℚ)
    (p u o tb : List (String × Nat))
    (h45 : p = [] ∨ (u = [] ∧ o = []))
    (h4 : u = [] ∨ o = [])
    (h6 : ∀ j ∈ p.map Prod.snd ++ u.map Prod.snd ++ o.map Prod.snd,
        ∀ k ∈ tb.map Prod.snd, j < k) :
    EventsOrdered (imFlushPara images usable p ++ imFlushList u false
      ++ imFlushList o true ++ imFlushTable tb) := by
  rcases h45 with hp | ⟨hu, ho⟩
  · subst hp
    rw [imFlushPara_nil, List.nil_append]
    rcases h4 with hu | ho
    · subst hu
      rw [imFlushList_nil, List.nil_append]
      refine EventsOrdered_append (imFlushList_ordered o true)
        (imFlushTable_ordered tb) ?_
      intro e1 he1 e2 he2 i hi j hj
      refine h6 i ?_ j (by rw [← (mem_imFlushTable he2).1]; exact hj)
      have := (mem_imFlushList he1).1
      rw [this] at hi
      simp [hi]
    · subst ho
      rw [imFlushList_nil, List.append_nil]
      refine EventsOrdered_append (imFlushList_ordered u false)
        (imFlushTable_ordered tb) ?_
      intro e1 he1 e2 he2 i hi j hj
      refine h6 i ?_ j (by rw [← (mem_imFlushTable he2).1]; exact hj)
      have := (mem_imFlushList he1).1
      rw [this] at hi
      simp [hi]
  · subst hu; subst ho
    rw [imFlushList_nil, imFlushList_nil, List.append_nil, List.append_nil]
    refine EventsOrdered_append (imFlushPara_ordered images usable p)
      (imFlushTable_ordered tb) ?_
    intro e1 he1 e2 he2 i hi j hj
    refine h6 i ?_ j (by rw [← (mem_imFlushTable he2).1]; exact hj)
    have := (mem_imFlushPara he1).1
    rw [this] at hi
    simp [hi]

theorem evsIdx_append (a b : List IEvent) :
    evsIdx (a ++ b) = evsIdx a ++ evsIdx b := by
  simp [evsIdx]

theorem imCloseTable_inv (images : ImageMap) (usable : ℚ) (n : Nat)
    (s : IState) (h : RunInv n s) :
    RunInv n (imCloseTable images usable s)
      ∧ (imCloseTable images usable s).tblBuf = []
      ∧ (imCloseTable images usable s).inTable = false := by
  obtain ⟨h1, h2, h3, hb, h5, h6, h7, h8⟩ := h
  by_cases hin : s.inTable
  · have hσ : imCloseTable images usable s
        = ⟨s.doc ++ imFlushPara images usable s.paraBuf
            ++ imFlushList s.ulBuf false ++ imFlushList s.olBuf true
            ++ imFlushTable s.tblBuf, [], [], [], false, []⟩ := by
      simp [imCloseTable, hin]
    rw [hσ]
    refine ⟨⟨?_, ?_, ?_, ?_, ?_, ?_, ?_, ?_⟩, rfl, rfl⟩
    · dsimp only
      have hre : s.doc ++ imFlushPara images usable s.paraBuf
          ++ imFlushList s.ulBuf false ++ imFlushList s.olBuf true
          ++ imFlushTable s.tblBuf
          = s.doc ++ (imFlushPara images usable s.paraBuf
              ++ imFlushList s.ulBuf false ++ imFlushList s.olBuf true
              ++ imFlushTable s.tblBuf) := by
        simp [List.append_assoc]
      rw [hre]
      refine EventsOrdered_append h1
        (flushSeq_ordered images usable _ _ _ _ h6 h5 h7) ?_
      intro e1 he1 e2 he2 i hi j hj
      refine h2 i ?_ j ?_
      · exact List.mem_flatMap.mpr ⟨e1, he1, hi⟩
      · exact flushSeq_idx images usable _ _ _ _ e2 he2 j hj
    · intro i _ j hj
      simp [bufIdx] at hj
    · intro i hi
      simp only [evsIdx] at hi
      rw [List.flatMap_append, List.flatMap_append, List.flatMap_append,
        List.flatMap_append] at hi
      simp only [List.mem_append] at hi
      rcases hi with ((((hi | hi) | hi) | hi) | hi)
      · exact h3 i hi
      all_goals {
        rcases List.mem_flatMap.mp hi with ⟨e, he, hie⟩
        refine hb i ?_
        first
        | (rw [(mem_imFlushPara he).1] at hie
           simp [bufIdx, hie])
        | (rw [(mem_imFlushList he).1] at hie
           simp [bufIdx, hie])
        | (rw [(mem_imFlushTable he).1] at hie
           simp [bufIdx, hie]) }
    · intro j hj
      simp [bufIdx] at hj
    · exact Or.inl rfl
    · exact Or.inl rfl
    · intro j hj
      simp at hj
    · rfl
  · have hσ : imCloseTable images usable s = s := by simp [imCloseTable, hin]
    have htb : s.tblBuf = [] := by
      have : s.inTable = false := by simpa using hin
      rw [this] at h8
      have : s.tblBuf.isEmpty = true := by
        cases hx : s.tblBuf.isEmpty
        · rw [hx] at h8; simp at h8
        · rfl
      exact List.isEmpty_iff.mp this
    rw [hσ]
    exact ⟨⟨h1, h2, h3, hb, h5, h6, h7, h8⟩, htb, by simpa using hin⟩

theorem idx_imFlushPara {images : ImageMap} {usable : ℚ}
    {p : List (String × Nat)} {i : Nat}
    (hi : i ∈ evsIdx (imFlushPara images usable p)) : i ∈ p.map Prod.snd := by
  rcases List.mem_flatMap.mp hi with ⟨e, he, hie⟩
  rw [← (mem_imFlushPara he).1]
  exact hie

theorem idx_imFlushList {u : List (String × Nat)} {o : Bool} {i : Nat}
    (hi : i ∈ evsIdx (imFlushList u o)) : i ∈ u.map Prod.snd := by
  rcases List.mem_flatMap.mp hi with ⟨e, he, hie⟩
  rw [← (mem_imFlushList he).1]
  exact hie

theorem idx_imFlushTable {tb : List (String × Nat)} {i : Nat}
    (hi : i ∈ evsIdx (imFlushTable tb)) : i ∈ tb.map Prod.snd := by
  rcases List.mem_flatMap.mp hi with ⟨e, he, hie⟩
  rw [← (mem_imFlushTable he).1]
  exact hie

theorem flush3_ordered (images : ImageMap) (usable : ℚ)
    (p u o : List (String × Nat))
    (h45 : p = [] ∨ (u = [] ∧ o = []))
    (h4 : u = [] ∨ o = []) :
    EventsOrdered (imFlushPara images usable p ++ imFlushList u false
      ++ imFlushList o true) := by
  have h := flushSeq_ordered images usable p u o [] h45 h4 (by simp)
  rwa [imFlushTable_nil, List.append_nil] at h

theorem flush3_idx (images : ImageMap) (usable : ℚ)
    (p u o : List (String × Nat)) :
    ∀ e ∈ imFlushPara images usable p ++ imFlushList u false
        ++ imFlushList o true,
      ∀ j ∈ e.2, j ∈ p.map Prod.snd ++ u.map Prod.snd ++ o.map Prod.snd := by
  intro e he j hj
  have h := flushSeq_idx images usable p u o [] e
    (by rw [imFlushTable_nil, List.append_nil]; exact he) j hj
  simpa using h


theorem inv_branch_table (n : Nat) (s : IState) (h : RunInv n s) (line : String) :
    RunInv (n + 1)
      ⟨s.doc, s.ulBuf, s.olBuf, s.tblBuf ++ [(line, n)], true, s.paraBuf⟩ := by
  obtain ⟨h1, h2, h3, hb, h5, h6, h7, h8⟩ := h
  refine ⟨h1, ?_, ?_, ?_, h5, h6, ?_, ?_⟩
  · intro i hi j hj
    have hj' : j ∈ bufIdx s ∨ j = n := by
      simp only [bufIdx, List.map_append, List.mem_append, List.map_cons,
        List.map_nil, List.mem_cons, List.not_mem_nil, or_false] at hj ⊢
      tauto
    rcases hj' with hj' | hj'
    · exact h2 i hi j hj'
    · subst hj'; exact h3 i hi
  · intro i hi
    exact Nat.lt_succ_of_lt (h3 i hi)
  · intro j hj
    have hj' : j ∈ bufIdx s ∨ j = n := by
      simp only [bufIdx, List.map_append, List.mem_append, List.map_cons,
        List.map_nil, List.mem_cons, List.not_mem_nil, or_false] at hj ⊢
      tauto
    rcases hj' with hj' | hj'
    · exact Nat.lt_succ_of_lt (hb j hj')
    · omega
  · intro j hj k hk
    have hk' : k ∈ s.tblBuf.map Prod.snd ∨ k = n := by
      simp only [List.map_append, List.mem_append, List.map_cons, List.map_nil,
        List.mem_cons, List.not_mem_nil, or_false] at hk
      tauto
    rcases hk' with hk' | hk'
    · exact h7 j hj k hk'
    · subst hk'
      refine hb j ?_
      simp only [bufIdx, List.mem_append]
      simp only [List.mem_append] at hj
      tauto
  · simp

theorem inv_branch_plain (n : Nat) (t : IState) (hct : RunInv n t)
    (htb : t.tblBuf = []) (hul : t.ulBuf = []) (hol : t.olBuf = [])
    (g : String) :
    RunInv (n + 1)
      ⟨t.doc, t.ulBuf, t.olBuf, t.tblBuf, t.inTable, t.paraBuf ++ [(g, n)]⟩ := by
  obtain ⟨h1, h2, h3, hb, h5, h6, h7, h8⟩ := hct
  refine ⟨h1, ?_, ?_, ?_, h5, Or.inr ⟨hul, hol⟩, ?_, h8⟩
  · intro i hi j hj
    have hj' : j ∈ bufIdx t ∨ j = n := by
      simp only [bufIdx, List.map_append, List.mem_append, List.map_cons,
        List.map_nil, List.mem_cons, List.not_mem_nil, or_false] at hj ⊢
      tauto
    rcases hj' with hj' | hj'
    · exact h2 i hi j hj'
    · subst hj'; exact h3 i hi
  · intro i hi
    exact Nat.lt_succ_of_lt (h3 i hi)
  · intro j hj
    have hj' : j ∈ bufIdx t ∨ j = n := by
      simp only [bufIdx, List.map_append, List.mem_append, List.map_cons,
        List.map_nil, List.mem_cons, List.not_mem_nil, or_false] at hj ⊢
      tauto
    rcases hj' with hj' | hj'
    · exact Nat.lt_succ_of_lt (hb j hj')
    · omega
  · intro j hj k hk
    rw [htb] at hk
    simp at hk

theorem idx_flush3 {images : ImageMap} {usable : ℚ}
    {p u o : List (String × Nat)} {i : Nat}
    (hi : i ∈ evsIdx (imFlushPara images usable p ++ imFlushList u false
      ++ imFlushList o true)) :
    i ∈ p.map Prod.snd ++ u.map Prod.snd ++ o.map Prod.snd := by
  rcases List.mem_flatMap.mp hi with ⟨e, he, hie⟩
  exact flush3_idx images usable p u o e he i hie

theorem mem_bufIdx_of_puo {t : IState} {i : Nat}
    (hi : i ∈ t.paraBuf.map Prod.snd ++ t.ulBuf.map Prod.snd
      ++ t.olBuf.map Prod.snd) : i ∈ bufIdx t := by
  simp only [bufIdx, List.mem_append] at hi ⊢
  tauto

theorem inv_branch_flush3 (images : ImageMap) (usable : ℚ) (n : Nat)
    (t : IState) (hct : RunInv n t) (htb : t.tblBuf = [])
    (tail : List IEvent) (htail : ∀ e ∈ tail, e.2 = [n])
    (htailord : EventsOrdered tail) :
    RunInv (n + 1)
      ⟨t.doc ++ imFlushPara images usable t.paraBuf ++ imFlushList t.ulBuf false
          ++ imFlushList t.olBuf true ++ tail,
        [], [], t.tblBuf, t.inTable, []⟩ := by
  obtain ⟨h1, h2, h3, hb, h5, h6, h7, h8⟩ := hct
  have hre : t.doc ++ imFlushPara images usable t.paraBuf
      ++ imFlushList t.ulBuf false ++ imFlushList t.olBuf true ++ tail
      = t.doc ++ ((imFlushPara images usable t.paraBuf
          ++ imFlushList t.ulBuf false ++ imFlushList t.olBuf true) ++ tail) := by
    simp [List.append_assoc]
  refine ⟨?_, ?_, ?_, ?_, Or.inl rfl, Or.inl rfl, ?_, h8⟩
  · dsimp only
    rw [hre]
    refine EventsOrdered_append h1 ?_ ?_
    · refine EventsOrdered_append (flush3_ordered images usable _ _ _ h6 h5)
        htailord ?_
      intro e1 he1 e2 he2 i hi j hj
      have hin : i < n := hb i (mem_bufIdx_of_puo (flush3_idx images usable _ _ _ e1 he1 i hi))
      have : j = n := by
        have := htail e2 he2
        rw [this] at hj
        simpa using hj
      omega
    · intro e1 he1 e2 he2 i hi j hj
      have hidoc : i ∈ evsIdx t.doc := List.mem_flatMap.mpr ⟨e1, he1, hi⟩
      rcases List.mem_append.mp he2 with he2 | he2
      · exact h2 i hidoc j (mem_bufIdx_of_puo (flush3_idx images usable _ _ _ e2 he2 j hj))
      · have : j = n := by
          have := htail e2 he2
          rw [this] at hj
          simpa using hj
        rw [this]
        exact h3 i hidoc
  · intro i hi j hj
    simp [bufIdx, htb] at hj
  · intro i hi
    dsimp only at hi
    rw [hre, evsIdx_append, evsIdx_append] at hi
    rcases List.mem_append.mp hi with hi | hi
    · exact Nat.lt_succ_of_lt (h3 i hi)
    · rcases List.mem_append.mp hi with hi | hi
      · exact Nat.lt_succ_of_lt (hb i (mem_bufIdx_of_puo (idx_flush3 hi)))
      · rcases List.mem_flatMap.mp hi with ⟨e, he, hie⟩
        have := htail e he
        rw [this] at hie
        simp at hie
        omega
  · intro j hj
    simp [bufIdx, htb] at hj
  · intro j hj k hk
    rw [htb] at hk
    simp at hk

theorem idx_flushPO {images : ImageMap} {usable : ℚ}
    {p o : List (String × Nat)} {ob : Bool} {i : Nat}
    (hi : i ∈ evsIdx (imFlushPara images usable p ++ imFlushList o ob)) :
    i ∈ p.map Prod.snd ++ o.map Prod.snd := by
  rcases List.mem_flatMap.mp hi with ⟨e, he, hie⟩
  rcases List.mem_append.mp he with he | he
  · exact List.mem_append.mpr (Or.inl (by rw [← (mem_imFlushPara he).1]; exact hie))
  · exact List.mem_append.mpr (Or.inr (by rw [← (mem_imFlushList he).1]; exact hie))

theorem flushPO_ordered (images : ImageMap) (usable : ℚ)
    (p o : List (String × Nat)) (ob : Bool)
    (hdisj : p = [] ∨ o = []) :
    EventsOrdered (imFlushPara images usable p ++ imFlushList o ob) := by
  rcases hdisj with hp | ho
  · subst hp
    rw [imFlushPara_nil, List.nil_append]
    exact imFlushList_ordered o ob
  · subst ho
    rw [imFlushList_nil, List.append_nil]
    exact imFlushPara_ordered images usable p

theorem inv_branch_ul (images : ImageMap) (usable : ℚ) (n : Nat)
    (t : IState) (hct : RunInv n t) (htb : t.tblBuf = []) (g : String) :
    RunInv (n + 1)
      ⟨t.doc ++ imFlushPara images usable t.paraBuf ++ imFlushList t.olBuf true,
        t.ulBuf ++ [(g, n)], [], t.tblBuf, t.inTable, []⟩ := by
  obtain ⟨h1, h2, h3, hb, h5, h6, h7, h8⟩ := hct
  have hre : t.doc ++ imFlushPara images usable t.paraBuf
      ++ imFlushList t.olBuf true
      = t.doc ++ (imFlushPara images usable t.paraBuf
          ++ imFlushList t.olBuf true) := by
    simp [List.append_assoc]
  have hdisj : t.paraBuf = [] ∨ t.olBuf = [] := by tauto
  have hsub : ∀ i : Nat, i ∈ t.paraBuf.map Prod.snd ++ t.olBuf.map Prod.snd →
      i ∈ bufIdx t := by
    intro i hi
    simp only [List.mem_append] at hi
    simp only [bufIdx, List.mem_append]
    tauto
  refine ⟨?_, ?_, ?_, ?_, Or.inr rfl, Or.inl rfl, ?_, h8⟩
  · dsimp only
    rw [hre]
    refine EventsOrdered_append h1 (flushPO_ordered images usable _ _ _ hdisj) ?_
    intro e1 he1 e2 he2 i hi j hj
    exact h2 i (List.mem_flatMap.mpr ⟨e1, he1, hi⟩)
      j (hsub j (idx_flushPO (List.mem_flatMap.mpr ⟨e2, he2, hj⟩)))
  · intro i hi j hj
    dsimp only at hi hj
    rw [hre, evsIdx_append] at hi
    have hj' : j ∈ t.ulBuf.map Prod.snd ∨ j = n := by
      simp only [bufIdx, htb, List.map_append, List.mem_append, List.map_cons,
        List.map_nil, List.mem_cons, List.not_mem_nil, or_false] at hj
      tauto
    rcases List.mem_append.mp hi with hi | hi
    · rcases hj' with hj' | hj'
      · refine h2 i hi j ?_
        simp only [bufIdx, List.mem_append]
        tauto
      · subst hj'; exact h3 i hi
    · have hipo := idx_flushPO hi
      have hin : i < n := hb i (hsub i hipo)
      rcases hj' with hj' | hj'
      · exfalso
        rcases List.mem_append.mp hipo with hip | hio
        · rcases h6 with hp | ⟨hu, ho⟩
          · rw [hp] at hip; simp at hip
          · rw [hu] at hj'; simp at hj'
        · rcases h5 with hu | ho
          · rw [hu] at hj'; simp at hj'
          · rw [ho] at hio; simp at hio
      · omega
  · intro i hi
    dsimp only at hi
    rw [hre, evsIdx_append] at hi
    rcases List.mem_append.mp hi with hi | hi
    · exact Nat.lt_succ_of_lt (h3 i hi)
    · exact Nat.lt_succ_of_lt (hb i (hsub i (idx_flushPO hi)))
  · intro j hj
    have hj' : j ∈ t.ulBuf.map Prod.snd ∨ j = n := by
      simp only [bufIdx, htb, List.map_append, List.mem_append, List.map_cons,
        List.map_nil, List.mem_cons, List.not_mem_nil, or_false] at hj
      tauto
    rcases hj' with hj' | hj'
    · refine Nat.lt_succ_of_lt (hb j ?_)
      simp only [bufIdx, List.mem_append]
      tauto
    · omega
  · intro j hj k hk
    rw [htb] at hk
    simp at hk

theorem inv_branch_ol (images : ImageMap) (usable : ℚ) (n : Nat)
    (t : IState) (hct : RunInv n t) (htb : t.tblBuf = []) (g : String) :
    RunInv (n + 1)
      ⟨t.doc ++ imFlushPara images usable t.paraBuf ++ imFlushList t.ulBuf false,
        [], t.olBuf ++ [(g, n)], t.tblBuf, t.inTable, []⟩ := by
  obtain ⟨h1, h2, h3, hb, h5, h6, h7, h8⟩ := hct
  have hre : t.doc ++ imFlushPara images usable t.paraBuf
      ++ imFlushList t.ulBuf false
      = t.doc ++ (imFlushPara images usable t.paraBuf
          ++ imFlushList t.ulBuf false) := by
    simp [List.append_assoc]
  have hdisj : t.paraBuf = [] ∨ t.ulBuf = [] := by tauto
  have hsub : ∀ i : Nat, i ∈ t.paraBuf.map Prod.snd ++ t.ulBuf.map Prod.snd →
      i ∈ bufIdx t := by
    intro i hi
    simp only [List.mem_append] at hi
    simp only [bufIdx, List.mem_append]
    tauto
  refine ⟨?_, ?_, ?_, ?_, Or.inl rfl, Or.inl rfl, ?_, h8⟩
  · dsimp only
    rw [hre]
    refine EventsOrdered_append h1 (flushPO_ordered images usable _ _ _ hdisj) ?_
    intro e1 he1 e2 he2 i hi j hj
    exact h2 i (List.mem_flatMap.mpr ⟨e1, he1, hi⟩)
      j (hsub j (idx_flushPO (List.mem_flatMap.mpr ⟨e2, he2, hj⟩)))
  · intro i hi j hj
    dsimp only at hi hj
    rw [hre, evsIdx_append] at hi
    have hj' : j ∈ t.olBuf.map Prod.snd ∨ j = n := by
      simp only [bufIdx, htb, List.map_append, List.mem_append, List.map_cons,
        List.map_nil, List.mem_cons, List.not_mem_nil, or_false] at hj
      tauto
    rcases List.mem_append.mp hi with hi | hi
    · rcases hj' with hj' | hj'
      · refine h2 i hi j ?_
        simp only [bufIdx, List.mem_append]
        tauto
      · subst hj'; exact h3 i hi
    · have hipo := idx_flushPO hi
      have hin : i < n := hb i (hsub i hipo)
      rcases hj' with hj' | hj'
      · exfalso
        rcases List.mem_append.mp hipo with hip | hiu
        · rcases h6 with hp | ⟨hu, ho⟩
          · rw [hp] at hip; simp at hip
          · rw [ho] at hj'; simp at hj'
        · rcases h5 with hu | ho
          · rw [hu] at hiu; simp at hiu
          · rw [ho] at hj'; simp at hj'
      · omega
  · intro i hi
    dsimp only at hi
    rw [hre, evsIdx_append] at hi
    rcases List.mem_append.mp hi with hi | hi
    · exact Nat.lt_succ_of_lt (h3 i hi)
    · exact Nat.lt_succ_of_lt (hb i (hsub i (idx_flushPO hi)))
  · intro j hj
    have hj' : j ∈ t.olBuf.map Prod.snd ∨ j = n := by
      simp only [bufIdx, htb, List.map_append, List.mem_append, List.map_cons,
        List.map_nil, List.mem_cons, List.not_mem_nil, or_false] at hj
      tauto
    rcases hj' with hj' | hj'
    · refine Nat.lt_succ_of_lt (hb j ?_)
      simp only [bufIdx, List.mem_append]
      tauto
    · omega
  · intro j hj k hk
    rw [htb] at hk
    simp at hk

theorem imStep_inv (images : ImageMap) (usable : ℚ) (n : Nat) (s : IState)
    (line : String) (h : RunInv n s)
    (hsafe : plainBranch line = true →
      (imCloseTable images usable s).ulBuf = []
        ∧ (imCloseTable images usable s).olBuf = []) :
    RunInv (n + 1) (imStep images usable n s line) := by
  by_cases htr : (tableRowMatch line).isSome
  · simp only [imStep, htr, if_true]
    exact inv_branch_table n s h line
  · obtain ⟨hct, htb, hin⟩ := imCloseTable_inv images usable n s h
    simp only [imStep]
    rw [if_neg htr]
    cases hh : headingMatch line with
    | some kg =>
      obtain ⟨k, g⟩ := kg
      simp only [hh]
      refine inv_branch_flush3 images usable n _ hct htb
        [([MdBlock.heading (min (max k 1) 9) (pyStrip g)], [n])] ?_ ?_
      · intro e he
        simp only [List.mem_singleton] at he
        rw [he]
      · simp [EventsOrdered]
    | none =>
      cases hu : ulMatch line with
      | some g =>
        simp only [hh, hu]
        exact inv_branch_ul images usable n _ hct htb (pyStrip g)
      | none =>
        cases ho : olMatch line with
        | some g =>
          simp only [hh, hu, ho]
          exact inv_branch_ol images usable n _ hct htb (pyStrip g)
        | none =>
          cases hi : imgLineMatch line with
          | some p =>
            obtain ⟨a, src⟩ := p
            simp only [hh, hu, ho, hi]
            refine inv_branch_flush3 images usable n _ hct htb
              [((match List.lookup (pyStrip src) images with
                  | some d => if d.truthy then [add_image_paragraph d usable] else []
                  | none => []), [n])] ?_ ?_
            · intro e he
              simp only [List.mem_singleton] at he
              rw [he]
            · simp [EventsOrdered]
          | none =>
            by_cases hbl : pyStrip line = ""
            · simp only [hh, hu, ho, hi, hbl, if_pos]
              have h3 := inv_branch_flush3 images usable n _ hct htb [] (by simp)
                (by simp [EventsOrdered])
              rwa [List.append_nil] at h3
            · simp only [hh, hu, ho, hi]
              rw [if_neg hbl]
              have htn : tableRowMatch line = none :=
                Option.not_isSome_iff_eq_none.mp htr
              have hpb : plainBranch line = true := by
                simp [plainBranch, htn, hh, hu, ho, hi, bne_iff_ne, hbl]
              obtain ⟨hul, hol⟩ := hsafe hpb
              exact inv_branch_plain n _ hct htb hul hol (pyStrip line)

theorem imRun_inv (images : ImageMap) (usable : ℚ) :
    ∀ (ls : List String) (n : Nat) (s : IState),
      RunInv n s → imSafeAux images usable n s ls = true →
      RunInv (n + ls.length) (imRun images usable n s ls) := by
  intro ls
  induction ls with
  | nil =>
    intro n s h _
    simpa [imRun] using h
  | cons l tl ih =>
    intro n s h hsafe
    simp only [imSafeAux, Bool.and_eq_true] at hsafe
    obtain ⟨hhead, htail⟩ := hsafe
    have hstep : RunInv (n + 1) (imStep images usable n s l) := by
      refine imStep_inv images usable n s l h ?_
      intro hpb
      rw [hpb] at hhead
      simp only [Bool.not_true, Bool.false_or, Bool.and_eq_true] at hhead
      exact ⟨List.isEmpty_iff.mp hhead.1, List.isEmpty_iff.mp hhead.2⟩
    have hrun := ih (n + 1) _ hstep htail
    have hlen : n + 1 + tl.length = n + (tl.length + 1) := by omega
    rw [hlen] at hrun
    simpa [imRun] using hrun

theorem imFinish_ordered (images : ImageMap) (usable : ℚ) (n : Nat)
    (s : IState) (h : RunInv n s) :
    EventsOrdered (imFinish images usable s) := by
  obtain ⟨h1, h2, h3, hb, h5, h6, h7, h8⟩ := h
  unfold imFinish
  have hre : s.doc ++ imFlushPara images usable s.paraBuf
      ++ imFlushList s.ulBuf false ++ imFlushList s.olBuf true
      ++ imFlushTable s.tblBuf
      = s.doc ++ (imFlushPara images usable s.paraBuf
          ++ imFlushList s.ulBuf false ++ imFlushList s.olBuf true
          ++ imFlushTable s.tblBuf) := by
    simp [List.append_assoc]
  rw [hre]
  refine EventsOrdered_append h1
    (flushSeq_ordered images usable _ _ _ _ h6 h5 h7) ?_
  intro e1 he1 e2 he2 i hi j hj
  exact h2 i (List.mem_flatMap.mpr ⟨e1, he1, hi⟩)
    j (flushSeq_idx images usable _ _ _ _ e2 he2 j hj)

theorem runInv_init : RunInv 0 initIState := by
  refine ⟨?_, ?_, ?_, ?_, Or.inl rfl, Or.inl rfl, ?_, rfl⟩
  · exact List.Pairwise.nil
  · intro i hi; simp [evsIdx, initIState] at hi
  · intro i hi; simp [evsIdx, initIState] at hi
  · intro j hj; simp [bufIdx, initIState] at hj
  · intro j hj k hk; simp [initIState] at hk

/-- Claim C1, counterexample: on the input lines `"- a"`, `"text"` the
plain-text line is buffered into the paragraph without flushing the
open list, and the end-of-input flush emits the paragraph (triggered by
line 1) before the list (triggered by line 0), so the emitted blocks
are NOT in the relative order of their triggering input lines. -/
theorem C1_counterexample :
    imarkdown_to_doc ["- a", "text"] [] 0
        = [([MdBlock.para "text"], [1]), ([MdBlock.list false ["a"]], [0])]
      ∧ ¬ EventsOrdered (imarkdown_to_doc ["- a", "text"] [] 0) := by
  refine ⟨by decide, ?_⟩
  intro h
  have he : imarkdown_to_doc ["- a", "text"] [] 0
      = [([MdBlock.para "text"], [1]), ([MdBlock.list false ["a"]], [0])] := by
    decide
  rw [he] at h
  have h1 := (List.pairwise_cons.mp h).1 ([MdBlock.list false ["a"]], [0])
    (by simp)
  have h10 := h1 1 (by simp) 0 (by simp)
  omega

/-- Claim C1 (amended): blocks are emitted in the same relative order
as their triggering input lines, PROVIDED no plain-text line arrives
while a list buffer is open (`imListSafe`); without that proviso the
paragraph-before-list flush order reorders blocks (see the
counterexample).  Each emission event of the instrumented run carries
the triggering line indices, and the trace is pairwise source-ordered. -/
theorem C1_blocks_in_source_order (lines : List String) (images : ImageMap)
    (usable : ℚ) (h : imListSafe lines images usable = true) :
    EventsOrdered (imarkdown_to_doc lines images usable) := by
  have hrun := imRun_inv images usable lines 0 initIState runInv_init h
  exact imFinish_ordered images usable (0 + lines.length) _ hrun

/-- Witness for C1: a concrete safe input whose instrumented trace is
source-ordered. -/
theorem C1_witness :
    imListSafe ["- a", "- b", "", "he llo", "# End"] [] 0 = true
      ∧ EventsOrdered (imarkdown_to_doc ["- a", "- b", "", "he llo", "# End"] [] 0) :=
  ⟨by decide, C1_blocks_in_source_order _ _ _ (by decide)⟩

theorem closeTable_ulol (images : ImageMap) (usable : ℚ) (s : PState)
    (h : s.ulBuf = [] ∨ s.olBuf = []) :
    (closeTable images usable s).ulBuf = []
      ∨ (closeTable images usable s).olBuf = [] := by
  by_cases hin : s.inTable
  · simp [closeTable, hin]
  · simpa [closeTable, hin] using h

theorem mdStep_ulol (images : ImageMap) (usable : ℚ) (s : PState)
    (line : String) (h : s.ulBuf = [] ∨ s.olBuf = []) :
    (mdStep images usable s line).ulBuf = []
      ∨ (mdStep images usable s line).olBuf = [] := by
  by_cases htr : (tableRowMatch line).isSome
  · simp only [mdStep, htr, if_true]
    exact h
  · have hc := closeTable_ulol images usable s h
    simp only [mdStep]
    rw [if_neg htr]
    cases hh : headingMatch line with
    | some kg =>
      obtain ⟨k, g⟩ := kg
      exact Or.inl rfl
    | none =>
      cases hu : ulMatch line with
      | some g => exact Or.inr rfl
      | none =>
        cases ho : olMatch line with
        | some g => exact Or.inl rfl
        | none =>
          cases hi : imgLineMatch line with
          | some p =>
            obtain ⟨a, src⟩ := p
            exact Or.inl rfl
          | none =>
            by_cases hbl : pyStrip line = ""
            · rw [if_pos hbl]
              exact Or.inl rfl
            · rw [if_neg hbl]
              exact hc

theorem foldl_ulol (images : ImageMap) (usable : ℚ) :
    ∀ (ls : List String) (s : PState), (s.ulBuf = [] ∨ s.olBuf = []) →
      ((ls.foldl (mdStep images usable) s).ulBuf = []
        ∨ (ls.foldl (mdStep images usable) s).olBuf = []) := by
  intro ls
  induction ls with
  | nil => intro s h; simpa using h
  | cons l t ih =>
    intro s h
    rw [List.foldl_cons]
    exact ih _ (mdStep_ulol images usable s l h)

/-- Claim C9: the unordered and ordered list buffers are never
simultaneously open (a kind change always flushes the other list
first, so an emitted `list` block can only carry items of one kind),
and the scenario input `"- a\n- b\n1. c"` yields exactly an unordered
list block `["a","b"]` immediately followed by an ordered list block
`["c"]`. -/
theorem C9_lists_never_mixed :
    (∀ (lines : List String) (images : ImageMap) (usable : ℚ),
        (lines.foldl (mdStep images usable) initState).ulBuf = []
          ∨ (lines.foldl (mdStep images usable) initState).olBuf = [])
      ∧ (∀ usable : ℚ,
          markdown_to_doc ["- a", "- b", "1. c"] [] usable
            = [MdBlock.list false ["a", "b"], MdBlock.list true ["c"]]) :=
  ⟨fun lines images usable => foldl_ulol images usable lines initState (Or.inl rfl),
    fun _ => rfl⟩

theorem pyStripList_eq_nil_all {cs : List Char} (h : pyStripList cs = []) :
    ∀ c ∈ cs, isPySpace c = true := by
  have h1 : (cs.dropWhile isPySpace).reverse.dropWhile isPySpace = [] := by
    have := congrArg List.reverse h
    simpa [pyStripList] using this
  have h2 : ∀ c ∈ (cs.dropWhile isPySpace).reverse, isPySpace c = true :=
    List.dropWhile_eq_nil_iff.mp h1
  have h3 : ∀ c ∈ cs.dropWhile isPySpace, isPySpace c = true := by
    intro c hc
    exact h2 c (List.mem_reverse.mpr hc)
  intro c hc
  have hsplit : cs.takeWhile isPySpace ++ cs.dropWhile isPySpace = cs :=
    List.takeWhile_append_dropWhile isPySpace cs
  rw [← hsplit] at hc
  rcases List.mem_append.mp hc with hc | hc
  · exact List.mem_takeWhile_imp hc
  · exact h3 c hc

theorem pyStrip_eq_empty_iff {l : String} :
    pyStrip l = "" ↔ pyStripList l.toList = [] := by
  constructor
  · intro h
    have := congrArg String.data h
    simpa [pyStrip] using this
  · intro h
    show String.mk (pyStripList l.data) = ""
    rw [show pyStripList l.data = [] from h]

theorem matchers_none_of_ws (l : String) (h : pyStrip l = "") :
    tableRowMatch l = none ∧ headingMatch l = none ∧ ulMatch l = none
      ∧ olMatch l = none ∧ imgLineMatch l = none := by
  have hpl : pyStripList l.data = [] := pyStrip_eq_empty_iff.mp h
  have hall : ∀ c ∈ l.toList, isPySpace c = true :=
    pyStripList_eq_nil_all hpl
  have hdrop : List.dropWhile isPySpace l.data = [] :=
    List.dropWhile_eq_nil_iff.mpr hall
  refine ⟨by simp [tableRowMatch, hpl], ?_, by simp [ulMatch, hdrop],
    by simp [olMatch, hdrop], by simp [imgLineMatch, hdrop]⟩
  cases hcs : l.data with
  | nil => simp [headingMatch, hcs]
  | cons c0 rest =>
    have hc0 : isPySpace c0 = true := hall c0 (by
      show c0 ∈ l.data
      rw [hcs]
      exact List.mem_cons_self c0 rest)
    have hne : (c0 == '#') = false := by
      cases hbe : c0 == '#'
      · rfl
      · have hc : c0 = '#' := by simpa using hbe
        rw [hc] at hc0
        exact absurd hc0 (by decide)
    simp [headingMatch, hcs, List.takeWhile_cons, List.dropWhile_cons, hne]

theorem mdStep_ws (images : ImageMap) (usable : ℚ) (l : String)
    (h : pyStrip l = "") : mdStep images usable initState l = initState := by
  obtain ⟨htr, hh, hu, ho, hi⟩ := matchers_none_of_ws l h
  simp only [mdStep, htr, Option.isSome_none, Bool.false_eq_true, if_false]
  have hct : closeTable images usable initState = initState := by
    simp [closeTable, initState]
  rw [hct]
  simp only [hh, hu, ho, hi]
  rw [if_pos h]
  rfl

/-- Claim C10: an input of only blank or whitespace-only lines emits no
blocks at all — blank lines only flush (empty) buffers and never enter
the paragraph buffer themselves. -/
theorem C10_blank_input (lines : List String) (images : ImageMap)
    (usable : ℚ) (h : ∀ l ∈ lines, pyStrip l = "") :
    markdown_to_doc lines images usable = [] := by
  have hfold : ∀ (ls : List String), (∀ l ∈ ls, pyStrip l = "") →
      ls.foldl (mdStep images usable) initState = initState := by
    intro ls
    induction ls with
    | nil => intro _; rfl
    | cons a t ih =>
      intro hws
      rw [List.foldl_cons, mdStep_ws images usable a (hws a (List.mem_cons_self a t))]
      exact ih (fun l hl => hws l (List.mem_cons_of_mem a hl))
  unfold markdown_to_doc
  rw [hfold lines h]
  rfl

/-- Witness for C10: two whitespace-only lines produce the empty block
sequence. -/
theorem C10_witness :
    (∀ l ∈ ["", "  ", " "], pyStrip l = "")
      ∧ markdown_to_doc ["", "  ", " "] [] 0 = [] :=
  ⟨by decide, C10_blank_input _ [] 0 (by decide)⟩

/-- Claim C4, counterexample: the line `"- "` (marker plus whitespace,
no content) does NOT degrade to plain text: it matches `UL_RE` (whose
group is `(.*)`) and produces a list item with empty text. -/
theorem C4_counterexample :
    markdown_to_doc ["- "] [] 0 = [MdBlock.list false [""]]
      ∧ ¬ ∃ t, markdown_to_doc ["- "] [] 0 = [MdBlock.para t] := by
  refine ⟨by decide, ?_⟩
  rintro ⟨t, ht⟩
  rw [show markdown_to_doc ["- "] [] 0 = [MdBlock.list false [""]] from by decide] at ht
  simp at ht

/-- Claim C4 (amended): a list marker followed by whitespace but no
text yields a list item with EMPTY text (the source patterns capture
`(.*)`, not `.+`); only a bare marker with no trailing whitespace
degrades to plain text; in every case the parse succeeds. -/
theorem C4_empty_marker (images : ImageMap) (usable : ℚ) :
    markdown_to_doc ["- "] images usable = [MdBlock.list false [""]]
      ∧ markdown_to_doc ["* "] images usable = [MdBlock.list false [""]]
      ∧ markdown_to_doc ["+ "] images usable = [MdBlock.list false [""]]
      ∧ markdown_to_doc ["1. "] images usable = [MdBlock.list true [""]]
      ∧ markdown_to_doc ["-"] images usable = [MdBlock.para "-"]
      ∧ markdown_to_doc ["1."] images usable = [MdBlock.para "1."] :=
  ⟨rfl, rfl, rfl, rfl, rfl, rfl⟩

/-- Claim C7: undecodable image bytes never raise: the Image Fitter
falls back to placing the image at exactly the usable width, and the
conversion of the rest of the document completes normally. -/
theorem C7_undecodable_fallback (usable : ℚ) :
    add_image_paragraph ImageData.undecodable usable = MdBlock.image usable
      ∧ add_image_paragraph ImageData.empty usable = MdBlock.image usable
      ∧ markdown_to_doc ["![a](b.png)", "hello"]
          [("b.png", ImageData.undecodable)] usable
          = [MdBlock.image usable, MdBlock.para "hello"] :=
  ⟨rfl, rfl, rfl⟩

/-- Claim C6: placement width is `width_px / dpi` when that fits, and
exactly the usable width otherwise; `fit_width 2000 200dpi 6.5in`
yields exactly 6.5. -/
theorem C6_fit_width_spec (widthPx : Nat) (dpi : Option ℚ) (usable : ℚ)
    (h : 0 ≤ usable) :
    ((widthPx : ℚ) / effDpi dpi ≤ usable →
        fit_width widthPx dpi usable = (widthPx : ℚ) / effDpi dpi)
      ∧ (usable < (widthPx : ℚ) / effDpi dpi →
          fit_width widthPx dpi usable = usable)
      ∧ fit_width 2000 (some 200) (13 / 2) = 13 / 2 := by
  refine ⟨?_, ?_, by norm_num [fit_width, effDpi]⟩
  · intro hle
    simp only [fit_width]
    rw [if_neg (not_lt.mpr hle)]
    ring
  · intro hlt
    simp only [fit_width]
    rw [if_pos hlt]
    have hne : (widthPx : ℚ) / effDpi dpi ≠ 0 := by
      intro h0
      rw [h0] at hlt
      exact absurd h (not_le.mpr hlt)
    rw [mul_comm]
    exact div_mul_cancel₀ usable hne

/-- Witness for C6: scenario D evaluated through the theorem. -/
theorem C6_witness :
    0 ≤ (13 / 2 : ℚ) ∧ fit_width 2000 (some 200) (13 / 2) = 13 / 2 :=
  ⟨by norm_num, (C6_fit_width_spec 2000 (some 200) (13 / 2) (by norm_num)).2.2⟩

theorem takeWhile_hash_prefix (k : Nat) (c0 : Char) (t : List Char)
    (hc : (c0 == '#') = false) :
    (List.replicate k '#' ++ c0 :: t).takeWhile (· == '#')
        = List.replicate k '#'
      ∧ (List.replicate k '#' ++ c0 :: t).dropWhile (· == '#') = c0 :: t := by
  induction k with
  | zero =>
    simp only [List.replicate, List.nil_append]
    exact ⟨List.takeWhile_cons_of_neg (by simp [hc]), List.dropWhile_cons_of_neg (by simp [hc])⟩
  | succ n ih =>
    simp only [List.replicate, List.cons_append]
    rw [List.takeWhile_cons_of_pos (by simp), List.dropWhile_cons_of_pos (by simp)]
    exact ⟨by rw [ih.1], by rw [ih.2]⟩

theorem dropWhile_space_append (ws rest : List Char)
    (h : ∀ c ∈ ws, isPySpace c = true) :
    (ws ++ rest).dropWhile isPySpace = rest.dropWhile isPySpace := by
  induction ws with
  | nil => simp
  | cons c t ih =>
    rw [List.cons_append, List.dropWhile_cons_of_pos (h c (List.mem_cons_self c t))]
    exact ih (fun x hx => h x (List.mem_cons_of_mem c hx))

theorem dropWhile_space_idem (l : List Char) :
    (l.dropWhile isPySpace).dropWhile isPySpace = l.dropWhile isPySpace := by
  induction l with
  | nil => rfl
  | cons a t ih =>
    cases ha : isPySpace a
    · rw [List.dropWhile_cons_of_neg (by simp [ha]),
        List.dropWhile_cons_of_neg (by simp [ha])]
    · rw [List.dropWhile_cons_of_pos ha]
      exact ih

theorem pyStripList_dropWhile (l : List Char) :
    pyStripList (l.dropWhile isPySpace) = pyStripList l := by
  unfold pyStripList
  rw [dropWhile_space_idem]

theorem dropWhile_append_singleton_neg (p : Char → Bool) (c : Char)
    (hc : p c = false) (A : List Char) :
    (A ++ [c]).dropWhile p = A.dropWhile p ++ [c] := by
  have hcp : ¬ p c = true := by rw [hc]; exact Bool.false_ne_true
  induction A with
  | nil =>
    rw [List.nil_append, List.dropWhile_cons_of_neg hcp]
    rfl
  | cons a t ih =>
    cases ha : p a
    · rw [List.cons_append, List.dropWhile_cons_of_neg (by simp [ha]),
        List.dropWhile_cons_of_neg (by simp [ha]), List.cons_append]
    · rw [List.cons_append, List.dropWhile_cons_of_pos ha,
        List.dropWhile_cons_of_pos ha]
      exact ih

theorem pyStripList_cons_not_space (c : Char) (t : List Char)
    (hc : isPySpace c = false) :
    pyStripList (c :: t) = c :: (t.reverse.dropWhile isPySpace).reverse := by
  unfold pyStripList
  rw [List.dropWhile_cons_of_neg (by simp [hc]), List.reverse_cons,
    dropWhile_append_singleton_neg isPySpace c hc, List.reverse_append]
  rfl

/-- Claim C8: a line of 1-6 hashes, whitespace, then non-empty text
classifies as a heading of exactly that level; the emitted block keeps
that level (the downstream clamp to [1,9] is the identity there) and
carries the text stripped of surrounding whitespace. -/
theorem C8_heading_level (k : Nat) (ws rest : List Char) (images : ImageMap)
    (usable : ℚ) (h1 : 1 ≤ k) (h2 : k ≤ 6) (h3 : ws ≠ [])
    (h4 : ∀ c ∈ ws, isPySpace c = true) (h5 : pyStripList rest ≠ []) :
    headingMatch (String.mk (List.replicate k '#' ++ ws ++ rest))
        = some (k, String.mk ((ws ++ rest).dropWhile isPySpace))
      ∧ markdown_to_doc [String.mk (List.replicate k '#' ++ ws ++ rest)]
          images usable
          = [MdBlock.heading k (String.mk (pyStripList rest))]
      ∧ min (max k 1) 9 = k := by
  obtain ⟨c0, ws', hws⟩ : ∃ c0 ws', ws = c0 :: ws' := by
    cases ws with
    | nil => exact absurd rfl h3
    | cons a b => exact ⟨a, b, rfl⟩
  have hc0 : isPySpace c0 = true := h4 c0 (by rw [hws]; exact List.mem_cons_self c0 ws')
  have hch : (c0 == '#') = false := by
    cases hbe : c0 == '#'
    · rfl
    · have hc : c0 = '#' := by simpa using hbe
      rw [hc] at hc0
      exact absurd hc0 (by decide)
  have hL : List.replicate k '#' ++ ws ++ rest
      = List.replicate k '#' ++ (c0 :: (ws' ++ rest)) := by
    rw [hws]
    simp [List.append_assoc]
  have htk := takeWhile_hash_prefix k c0 (ws' ++ rest) hch
  have e1 : (String.mk (List.replicate k '#' ++ ws ++ rest)).toList.takeWhile (· == '#')
      = List.replicate k '#' := by
    show (List.replicate k '#' ++ ws ++ rest).takeWhile (· == '#') = _
    rw [hL]
    exact htk.1
  have e2 : (String.mk (List.replicate k '#' ++ ws ++ rest)).toList.dropWhile (· == '#')
      = c0 :: (ws' ++ rest) := by
    show (List.replicate k '#' ++ ws ++ rest).dropWhile (· == '#') = _
    rw [hL]
    exact htk.2
  have hA : headingMatch (String.mk (List.replicate k '#' ++ ws ++ rest))
      = some (k, String.mk ((ws ++ rest).dropWhile isPySpace)) := by
    simp only [headingMatch, e1, e2, List.length_replicate]
    rw [if_pos ⟨h1, h2, hc0⟩, List.dropWhile_cons_of_pos hc0, hws,
      List.cons_append, List.dropWhile_cons_of_pos hc0]
  obtain ⟨k', hk⟩ : ∃ k', k = k' + 1 := by
    cases k with
    | zero => omega
    | succ m => exact ⟨m, rfl⟩
  have hLc : List.replicate k '#' ++ ws ++ rest
      = '#' :: (List.replicate k' '#' ++ (c0 :: (ws' ++ rest))) := by
    rw [hL, hk, List.replicate_succ, List.cons_append]
  obtain ⟨c1, T2, hT⟩ : ∃ c1 T2,
      List.replicate k' '#' ++ (c0 :: (ws' ++ rest)) = c1 :: T2 := by
    cases hc : List.replicate k' '#' ++ (c0 :: (ws' ++ rest)) with
    | nil =>
      exfalso
      have := congrArg List.length hc
      simp at this
    | cons a b => exact ⟨a, b, rfl⟩
  have hnspace : ¬ isPySpace '#' = true := by decide
  have htr : tableRowMatch (String.mk (List.replicate k '#' ++ ws ++ rest)) = none := by
    simp only [tableRowMatch]
    rw [show (String.mk (List.replicate k '#' ++ ws ++ rest)).toList
        = List.replicate k '#' ++ ws ++ rest from rfl, hLc,
      pyStripList_cons_not_space '#' _ (by decide)]
    rfl
  have hul : ulMatch (String.mk (List.replicate k '#' ++ ws ++ rest)) = none := by
    simp only [ulMatch]
    rw [show (String.mk (List.replicate k '#' ++ ws ++ rest)).toList
        = List.replicate k '#' ++ ws ++ rest from rfl, hLc,
      List.dropWhile_cons_of_neg hnspace, hT]
    rfl
  have hol : olMatch (String.mk (List.replicate k '#' ++ ws ++ rest)) = none := by
    simp only [olMatch]
    rw [show (String.mk (List.replicate k '#' ++ ws ++ rest)).toList
        = List.replicate k '#' ++ ws ++ rest from rfl, hLc,
      List.dropWhile_cons_of_neg hnspace,
      List.takeWhile_cons_of_neg (by decide : ¬ Char.isDigit '#' = true),
      List.dropWhile_cons_of_neg (by decide : ¬ Char.isDigit '#' = true)]
  have himg : imgLineMatch (String.mk (List.replicate k '#' ++ ws ++ rest)) = none := by
    simp only [imgLineMatch]
    rw [show (String.mk (List.replicate k '#' ++ ws ++ rest)).toList
        = List.replicate k '#' ++ ws ++ rest from rfl, hLc,
      List.dropWhile_cons_of_neg hnspace]
    rfl
  have hmin : min (max k 1) 9 = k := by omega
  refine ⟨hA, ?_, hmin⟩
  have htext : pyStrip (String.mk ((ws ++ rest).dropWhile isPySpace))
      = String.mk (pyStripList rest) := by
    show String.mk (pyStripList ((ws ++ rest).dropWhile isPySpace)) = _
    rw [dropWhile_space_append ws rest h4, pyStripList_dropWhile rest]
  have hct : closeTable images usable initState = initState := by
    simp [closeTable, initState]
  simp only [markdown_to_doc, List.foldl_cons, List.foldl_nil, mdStep, htr,
    Option.isSome_none, Bool.false_eq_true, if_false, hct, hA]
  rw [hmin, htext]
  rfl

/-- Witness for C8: the line `"## Hi"` produces `Heading 2 "Hi"`. -/
theorem C8_witness :
    (1 ≤ 2 ∧ 2 ≤ 6 ∧ ([' '] : List Char) ≠ []
        ∧ (∀ c ∈ ([' '] : List Char), isPySpace c = true)
        ∧ pyStripList "Hi".toList ≠ [])
      ∧ markdown_to_doc [String.mk (List.replicate 2 '#' ++ [' '] ++ "Hi".toList)]
          [] 0
          = [MdBlock.heading 2 (String.mk (pyStripList "Hi".toList))] :=
  ⟨by decide,
    (C8_heading_level 2 [' '] "Hi".toList [] 0 (by decide) (by decide)
      (by decide) (by decide) (by decide)).2.1⟩

theorem padRow_length (cols : Nat) (row : List String) :
    (padRow cols row).length = cols := by
  simp [padRow]

theorem padRow_append (cols : Nat) (row : List String) (h : row.length ≤ cols) :
    padRow cols row = row ++ List.replicate (cols - row.length) "" := by
  induction row generalizing cols with
  | nil =>
    simp [padRow, List.map_const']
  | cons a t ih =>
    cases cols with
    | zero => simp at h
    | succ n =>
      simp only [List.length_cons] at h
      simp only [padRow, List.range_succ_eq_map, List.map_cons,
        List.getD_cons_zero, List.map_map, List.cons_append, List.length_cons]
      rw [Nat.succ_sub_succ]
      congr 1
      have he : ∀ j ∈ List.range n,
          ((fun j => (a :: t).getD j "") ∘ Nat.succ) j = (fun j => t.getD j "") j := by
        intro j _
        simp [List.getD_cons_succ]
      rw [List.map_congr_left he]
      have h2 := ih n (by omega)
      simp only [padRow] at h2
      rw [h2]

theorem padRow_self (row : List String) : padRow row.length row = row := by
  rw [padRow_append row.length row (Nat.le_refl _), Nat.sub_self]
  simp

theorem maxCols_all_eq (C : Nat) :
    ∀ (m : List (List String)), m ≠ [] → (∀ r ∈ m, r.length = C) →
      maxCols m = C := by
  have aux : ∀ (m : List (List String)) (acc : Nat),
      (∀ r ∈ m, r.length = C) → m ≠ [] →
      m.foldl (fun a r => max a r.length) acc = max acc C := by
    intro m
    induction m with
    | nil => intro acc _ hne; exact absurd rfl hne
    | cons r rest ih =>
      intro acc hall _
      rw [List.foldl_cons, hall r (List.mem_cons_self r rest)]
      cases hrest : rest with
      | nil => rfl
      | cons b bs =>
        rw [← hrest]
        have := ih (max acc C) (fun x hx => hall x (List.mem_cons_of_mem r hx))
          (by rw [hrest]; simp)
        rw [this, max_assoc, max_self]
  intro m hne hall
  have := aux m 0 hall hne
  rw [maxCols, this, Nat.zero_max]

theorem maxCols_le : ∀ (m : List (List String)) (r : List String), r ∈ m →
    r.length ≤ maxCols m := by
  have aux1 : ∀ (m : List (List String)) (acc : Nat),
      acc ≤ m.foldl (fun a r => max a r.length) acc := by
    intro m
    induction m with
    | nil => intro acc; exact Nat.le_refl acc
    | cons r rest ih =>
      intro acc
      rw [List.foldl_cons]
      exact Nat.le_trans (Nat.le_max_left acc r.length) (ih (max acc r.length))
  intro m
  induction m with
  | nil => intro r hr; simp at hr
  | cons a rest ih =>
    intro r hr
    rcases List.mem_cons.mp hr with hr | hr
    · subst hr
      refine Nat.le_trans (Nat.le_max_right 0 r.length) (aux1 rest (max 0 r.length))
    · have := ih r hr
      refine Nat.le_trans this ?_
      unfold maxCols
      rw [List.foldl_cons]
      -- monotonicity of the fold in the accumulator
      have mono : ∀ (m' : List (List String)) (a b : Nat), a ≤ b →
          m'.foldl (fun x r => max x r.length) a
            ≤ m'.foldl (fun x r => max x r.length) b := by
        intro m'
        induction m' with
        | nil => intro a b hab; simpa using hab
        | cons c cs ihm =>
          intro a b hab
          rw [List.foldl_cons, List.foldl_cons]
          exact ihm _ _ (max_le_max hab (le_refl c.length))
      exact mono rest 0 (max 0 a.length) (Nat.zero_le _)

theorem filterMap_rowCells_all (C : Nat) :
    ∀ (rows : List String),
      (∀ r ∈ rows, ∃ cs, rowCells r = some cs ∧ cs.length = C) →
      (rows.filterMap rowCells).length = rows.length
        ∧ ∀ cs ∈ rows.filterMap rowCells, cs.length = C := by
  intro rows
  induction rows with
  | nil => intro _; exact ⟨rfl, by simp⟩
  | cons r rest ih =>
    intro hall
    obtain ⟨cs, hcs, hlen⟩ := hall r (List.mem_cons_self r rest)
    obtain ⟨ihl, ihm⟩ := ih (fun x hx => hall x (List.mem_cons_of_mem r hx))
    rw [List.filterMap_cons_some hcs]
    refine ⟨by simp [ihl], ?_⟩
    intro x hx
    rcases List.mem_cons.mp hx with hx | hx
    · subst hx; exact hlen
    · exact ihm x hx

/-- Claim C2: table finalization emits zero blocks when every buffered
row is an alignment row; any emitted table consists of the non-align
matched rows right-padded with empty cells to the widest row (so it is
rectangular); and an R-row table whose rows all match with exactly C
cells and contain no alignment row yields exactly one table block of R
rows of C cells. -/
theorem C2_flush_table_spec (rows : List String) (C : Nat) :
    ((∀ r ∈ rows, is_align_row r = true) → flush_table rows = [])
      ∧ (∀ M, flush_table rows = [MdBlock.table M] →
          M = ((rows.filter (fun r => !is_align_row r)).filterMap rowCells).map
              (fun cs => cs ++ List.replicate
                (maxCols ((rows.filter (fun r => !is_align_row r)).filterMap rowCells)
                  - cs.length) "")
            ∧ ∀ row ∈ M,
                row.length
                  = maxCols ((rows.filter (fun r => !is_align_row r)).filterMap rowCells))
      ∧ (rows ≠ [] → (∀ r ∈ rows, is_align_row r = false) →
          (∀ r ∈ rows, ∃ cs, rowCells r = some cs ∧ cs.length = C) →
          ∃ M, flush_table rows = [MdBlock.table M]
            ∧ M.length = rows.length ∧ ∀ row ∈ M, row.length = C) := by
  refine ⟨?_, ?_, ?_⟩
  · intro hall
    by_cases h0 : rows.isEmpty
    · simp [flush_table, h0]
    · have hfil : rows.filter (fun r => !is_align_row r) = [] := by
        refine List.filter_eq_nil_iff.mpr ?_
        intro r hr
        simp [hall r hr]
      simp [flush_table, h0, hfil]
  · intro M hM
    simp only [flush_table] at hM
    by_cases h0 : rows.isEmpty
    · rw [if_pos h0] at hM
      exact absurd hM (by simp)
    · rw [if_neg h0] at hM
      by_cases h1 : (rows.filter (fun r => !is_align_row r)).isEmpty
      · rw [if_pos h1] at hM
        exact absurd hM (by simp)
      · rw [if_neg h1] at hM
        by_cases h2 : ((rows.filter (fun r => !is_align_row r)).filterMap rowCells).isEmpty
        · rw [if_pos h2] at hM
          exact absurd hM (by simp)
        · rw [if_neg h2] at hM
          simp only [List.cons.injEq, and_true, MdBlock.table.injEq] at hM
          have hMe := hM.symm
          constructor
          · rw [hMe]
            refine List.map_congr_left ?_
            intro cs hcs
            exact padRow_append _ cs (maxCols_le _ cs hcs)
          · intro row hrow
            rw [hMe] at hrow
            rcases List.mem_map.mp hrow with ⟨cs, hcs, hpr⟩
            rw [← hpr]
            exact padRow_length _ cs
  · intro hne hnoalign hcells
    have h0 : rows.isEmpty = false := by
      cases rows with
      | nil => exact absurd rfl hne
      | cons _ _ => rfl
    have hfil : rows.filter (fun r => !is_align_row r) = rows := by
      refine List.filter_eq_self.mpr ?_
      intro r hr
      simp [hnoalign r hr]
    obtain ⟨hlen, hmem⟩ := filterMap_rowCells_all C rows hcells
    have hmne : rows.filterMap rowCells ≠ [] := by
      intro hx
      rw [hx] at hlen
      exact hne (List.length_eq_zero.mp hlen.symm)
    have h2 : (rows.filterMap rowCells).isEmpty = false := by
      cases hm : rows.filterMap rowCells with
      | nil => exact absurd hm hmne
      | cons _ _ => rfl
    have hKc : maxCols (rows.filterMap rowCells) = C := maxCols_all_eq C _ hmne hmem
    refine ⟨(rows.filterMap rowCells).map (padRow C), ?_, ?_, ?_⟩
    · simp [flush_table, h0, hfil, h2, hKc]
    · rw [List.length_map]
      exact hlen
    · intro row hrow
      rcases List.mem_map.mp hrow with ⟨cs, hcs, hpr⟩
      rw [← hpr]
      exact padRow_length C cs

/-- Witness for C2: a 2x2 table with no alignment rows round-trips. -/
theorem C2_witness :
    (["| a | b |", "| c | d |"] : List String) ≠ []
      ∧ (∀ r ∈ ["| a | b |", "| c | d |"], is_align_row r = false)
      ∧ (∀ r ∈ ["| a | b |", "| c | d |"],
          ∃ cs, rowCells r = some cs ∧ cs.length = 2)
      ∧ ∃ M, flush_table ["| a | b |", "| c | d |"] = [MdBlock.table M]
          ∧ M.length = 2 ∧ ∀ row ∈ M, row.length = 2 := by
  have hex : ∀ r ∈ ["| a | b |", "| c | d |"],
      ∃ cs, rowCells r = some cs ∧ cs.length = 2 := by
    intro r hr
    rcases List.mem_cons.mp hr with h | h
    · subst h
      exact ⟨["a", "b"], by decide, by decide⟩
    · rcases List.mem_cons.mp h with h2 | h2
      · subst h2
        exact ⟨["c", "d"], by decide, by decide⟩
      · simp at h2
  refine ⟨by decide, by decide, hex, ?_⟩
  have h := (C2_flush_table_spec ["| a | b |", "| c | d |"] 2).2.2
    (by decide) (by decide) hex
  simpa using h

theorem hasImgIn_cons_none {c : Char} {rest : List Char}
    (h : hasImgIn (c :: rest) = false) :
    imgTokenAt (c :: rest) = none ∧ hasImgIn rest = false := by
  simp only [hasImgIn, Bool.or_eq_false_iff] at h
  exact ⟨Option.not_isSome_iff_eq_none.mp (by simp [h.1]), h.2⟩

theorem partsAux_no_img :
    ∀ (fuel : Nat) (pend cs : List Char), cs.length ≤ fuel →
      hasImgIn cs = false →
      partsAux fuel pend cs
        = if (pend.reverse ++ cs).isEmpty then []
          else [MdPart.text (String.mk (pend.reverse ++ cs))] := by
  intro fuel
  induction fuel with
  | zero =>
    intro pend cs hle _
    have : cs = [] := List.length_eq_zero.mp (Nat.le_zero.mp hle)
    subst this
    simp [partsAux]
  | succ f ih =>
    intro pend cs hle hno
    cases cs with
    | nil => simp [partsAux]
    | cons c rest =>
      obtain ⟨hnone, hrest⟩ := hasImgIn_cons_none hno
      simp only [partsAux, hnone]
      simp only [List.length_cons] at hle
      rw [ih (c :: pend) rest (by omega) hrest]
      simp [List.append_assoc]

/-- Claim C3 (amended): with no inline match the whole text is one text
fragment; fragments appear in left-to-right source order with one image
per match carrying the captured filename and surrounding text pieces
stripped (scenario C); but a whitespace-only piece between two matches
yields an explicit EMPTY paragraph rather than no fragment. -/
theorem C3_inline_fragments (text : String) (images : ImageMap) (usable : ℚ) :
    (hasInlineImg text = false →
        handle_inline_images text images usable
          = [add_paragraph_block (pyStrip text)])
      ∧ (∀ d : ImageData, d.truthy = true →
          handle_inline_images "![alt](pic.png) trailing text"
            [("pic.png", d)] usable
            = [add_image_paragraph d usable, MdBlock.para "trailing text"])
      ∧ handle_inline_images "![a](x.png) ![b](y.png)"
          [("x.png", ImageData.undecodable), ("y.png", ImageData.undecodable)]
          usable
          = [MdBlock.image usable, MdBlock.para "", MdBlock.image usable] := by
  refine ⟨?_, ?_, rfl⟩
  · intro hno
    by_cases htxt : text = ""
    · subst htxt
      rfl
    · have htne : text.toList.isEmpty = false := by
        cases hx : text.toList.isEmpty
        · rfl
        · exfalso
          apply htxt
          have : text.toList = [] := List.isEmpty_iff.mp hx
          cases text with
          | mk d =>
            simp only [String.toList] at this
            rw [this]
      have hp := partsAux_no_img text.toList.length [] text.toList
        (Nat.le_refl _) hno
      simp only [List.reverse_nil, List.nil_append] at hp
      have hcond : ¬ text.toList.isEmpty = true := by
        rw [htne]
        exact Bool.false_ne_true
      simp only [handle_inline_images, mdParts, hp]
      rw [if_neg hcond]
      have htt : String.mk text.toList = text := rfl
      simp only [htt, List.isEmpty_cons, Bool.false_eq_true, if_false,
        List.flatMap_cons, List.flatMap_nil, List.append_nil, renderPart]
      by_cases hs : pyStrip text = ""
      · rw [if_pos hs, hs]
        decide
      · rw [if_neg hs]
  · intro d hd
    have hp : mdParts "![alt](pic.png) trailing text".toList
        = [MdPart.img "pic.png", MdPart.text " trailing text"] := by decide
    simp only [handle_inline_images, hp, List.isEmpty_cons, Bool.false_eq_true,
      if_false, List.flatMap_cons, List.flatMap_nil, List.append_nil, renderPart]
    have hlk : List.lookup "pic.png" [("pic.png", d)] = some d := by
      simp [List.lookup]
    rw [hlk]
    simp only [hd, if_true]
    have ht1 : pyStrip " trailing text" = "trailing text" := by decide
    have ht2 : ¬ ("trailing text" : String) = "" := by decide
    have ht3 : pyStrip "trailing text" = "trailing text" := by decide
    rw [ht1, if_neg ht2]
    simp [add_paragraph_block, ht3, ht2]

/-- Claim C3, counterexample: the whitespace-only piece between two
inline images yields an explicit empty paragraph, not nothing — the
fragment sequence is image, empty paragraph, image. -/
theorem C3_counterexample :
    handle_inline_images "![a](x.png) ![b](y.png)"
        [("x.png", ImageData.undecodable), ("y.png", ImageData.undecodable)] 1
        = [MdBlock.image 1, MdBlock.para "", MdBlock.image 1]
      ∧ handle_inline_images "![a](x.png) ![b](y.png)"
          [("x.png", ImageData.undecodable), ("y.png", ImageData.undecodable)] 1
          ≠ [MdBlock.image 1, MdBlock.image 1] := by
  constructor <;> decide

/-- Witness for C3: the no-match case and scenario C instantiated. -/
theorem C3_witness :
    hasInlineImg "plain text" = false
      ∧ handle_inline_images "plain text" [] 0
          = [add_paragraph_block (pyStrip "plain text")]
      ∧ ImageData.undecodable.truthy = true
      ∧ handle_inline_images "![alt](pic.png) trailing text"
          [("pic.png", ImageData.undecodable)] 0
          = [add_image_paragraph ImageData.undecodable 0,
              MdBlock.para "trailing text"] :=
  ⟨by decide, (C3_inline_fragments "plain text" [] 0).1 (by decide), rfl,
    (C3_inline_fragments "plain text" [] 0).2.1 ImageData.undecodable rfl⟩

/-- Claim C5, counterexample: an unresolved inline image reference is
silently dropped; no placeholder text fragment
`"[missing image: <name>]"` is ever produced. -/
theorem C5_counterexample :
    handle_inline_images "![a](missing.png)" [] 1 = []
      ∧ handle_inline_images "![a](missing.png)" [] 1
          ≠ [MdBlock.para "[missing image: missing.png]"] := by
  constructor <;> decide

/-- Claim C5 (amended): for every image set lacking the referenced
filename, the conversion never aborts and the reference is silently
omitted — this is the only behavior; the code has no configurable
policy and no placeholder branch. -/
theorem C5_missing_image_omitted (images : ImageMap) (usable : ℚ)
    (h : List.lookup "missing.png" images = none) :
    handle_inline_images "![a](missing.png)" images usable = []
      ∧ markdown_to_doc ["![a](missing.png)", "hello"] images usable
          = [MdBlock.para "hello"] := by
  constructor
  · have hp : mdParts "![a](missing.png)".toList = [MdPart.img "missing.png"] := by
      decide
    simp only [handle_inline_images, hp, List.isEmpty_cons, Bool.false_eq_true,
      if_false, List.flatMap_cons, List.flatMap_nil, List.append_nil, renderPart]
    rw [h]
  · have htr1 : tableRowMatch "![a](missing.png)" = none := by decide
    have hh1 : headingMatch "![a](missing.png)" = none := by decide
    have hu1 : ulMatch "![a](missing.png)" = none := by decide
    have ho1 : olMatch "![a](missing.png)" = none := by decide
    have hi1 : imgLineMatch "![a](missing.png)" = some ("a", "missing.png") := by
      decide
    have hct : closeTable images usable initState = initState := by
      simp [closeTable, initState]
    have hps : pyStrip "missing.png" = "missing.png" := by decide
    have hstep1 : mdStep images usable initState "![a](missing.png)" = initState := by
      simp only [mdStep, htr1, Option.isSome_none, Bool.false_eq_true, if_false,
        hct, hh1, hu1, ho1, hi1, hps, h]
      rfl
    have htr2 : tableRowMatch "hello" = none := by decide
    have hh2 : headingMatch "hello" = none := by decide
    have hu2 : ulMatch "hello" = none := by decide
    have ho2 : olMatch "hello" = none := by decide
    have hi2 : imgLineMatch "hello" = none := by decide
    have hb2 : ¬ pyStrip "hello" = "" := by decide
    have hstep2 : mdStep images usable initState "hello"
        = ⟨[], [], [], [], false, [pyStrip "hello"]⟩ := by
      simp only [mdStep, htr2, Option.isSome_none, Bool.false_eq_true, if_false,
        hct, hh2, hu2, ho2, hi2]
      rw [if_neg hb2]
      rfl
    simp only [markdown_to_doc, List.foldl_cons, List.foldl_nil, hstep1, hstep2]
    rfl

/-- Witness for C5: the empty image set lacks the key. -/
theorem C5_witness :
    List.lookup "missing.png" ([] : ImageMap) = none
      ∧ handle_inline_images "![a](missing.png)" [] 0 = []
      ∧ markdown_to_doc ["![a](missing.png)", "hello"] [] 0
          = [MdBlock.para "hello"] :=
  ⟨rfl, (C5_missing_image_omitted [] 0 rfl).1, (C5_missing_image_omitted [] 0 rfl).2⟩
